import Mathlib

/-!
# A shallow embedding of `queue.c`

The queue of `queue.c` is a singly linked chain of heap nodes with a head
pointer, a tail pointer and an element count.  The embedding keeps the pointer
structure explicit:

* a pointer is a natural number, `0` is `NULL`;
* the heap maps an address to the node stored there (`none`: not allocated);
* a `char *` string is the list of bytes of the object it points into, read as
  text up to its first NUL byte;
* the caller's destination buffer of `q_remove_head` is a byte memory indexed
  from `sp`; a copy of `SIZE_MAX` bytes, which no object can hold, is a `Fault`;
* results of `malloc` are inputs of the operations (an address or `NULL`);
* loops whose termination depends on the shape of the heap take a fuel
  argument; reading through `NULL` or an unallocated address is a `Fault`;
* the store `q->tail->next = newt` of `q_insert_tail` through a tail pointer
  that refers to a released node lands in released memory: the call goes on and
  returns, and no live node is changed;
* `size_t` arithmetic wraps modulo `SIZE_MAX + 1`; the `int` element count is an
  integer kept in the range of `int`: `q->size++` and `q->size--` wrap modulo
  `2 ^ 32`, so that one more element than `INT_MAX` gives `INT_MIN`.
-/

namespace Queue

/-! ## Data model -/

/-- Ways in which a run of the embedded code fails to return. -/
inductive Fault where
  | null      -- a NULL pointer was dereferenced
  | dangling  -- an address that holds no live node was dereferenced
  | uninit    -- an uninitialised local was read
  | overrun   -- a copy ran off the end of every possible destination object
  | fuel      -- the loop budget of the model ran out
  deriving DecidableEq, Repr

/-- The type `list_ele_t`: a value buffer (`none` is a NULL `value`) and the link. -/
structure list_ele_t where
  value : Option (List Nat)
  next : Nat
  deriving DecidableEq, Repr

/-- The type `queue_t`: head and tail pointers and the `int` element count, an
integer that the operations keep in the range of `int` (see `int_wrap`). -/
structure queue_t where
  head : Nat
  tail : Nat
  size : Int
  deriving DecidableEq, Repr

/-- The heap of list elements. -/
abbrev Heap := Nat → Option list_ele_t

/-- Byte memory starting at some base pointer. -/
abbrev Mem := Nat → Nat

/-- The heap in which nothing is allocated. -/
def emptyHeap : Heap := fun _ => none

/-- Write a node at an address. -/
def store (h : Heap) (p : Nat) (nd : list_ele_t) : Heap :=
  fun a => if a = p then some nd else h a

/-- The effect of `free(p)` on a list element. -/
def release (h : Heap) (p : Nat) : Heap :=
  fun a => if a = p then none else h a

/-- Read the node a pointer refers to. -/
def load (h : Heap) (p : Nat) : Except Fault list_ele_t :=
  if p = 0 then .error .null
  else match h p with
    | some nd => .ok nd
    | none => .error .dangling

/-- The assignment `p->next = x`. -/
def setNext (h : Heap) (p x : Nat) : Except Fault Heap :=
  match load h p with
  | .ok nd => .ok (store h p { nd with next := x })
  | .error e => .error e

/-- The store `p->next = x` as the machine performs it: the link of a live node
is replaced; a store into released memory changes no node. -/
def write_next (h : Heap) (p x : Nat) : Heap :=
  match h p with
  | some nd => store h p { nd with next := x }
  | none => h

/-- The largest value of `int` (32-bit). -/
def INT_MAX : Int := 2147483647

/-- The smallest value of `int` (32-bit). -/
def INT_MIN : Int := -2147483648

/-- The value an `int` holds after an arithmetic result left its range:
two's complement wrap modulo `2 ^ 32`. -/
def int_wrap (x : Int) : Int := (x + 2147483648) % 4294967296 - 2147483648

/-! ## C strings -/

/-- The text of a buffer: its bytes before the first NUL. -/
def cstr (buf : List Nat) : List Nat := buf.takeWhile (fun b => b ≠ 0)

/-- The library function `strlen`. -/
def strlen (buf : List Nat) : Nat := (cstr buf).length

/-- The library function `strncpy(dst, src, n)`: exactly `n` bytes of `dst` are
written, the text of `src` first and NUL bytes once the text is exhausted. -/
def strncpy (dst : Mem) (src : List Nat) (n : Nat) : Mem :=
  fun i => if i < n then (if i < strlen src then src.getD i 0 else 0) else dst i

/-- The assignment `m[i] = b`. -/
def poke (m : Mem) (i b : Nat) : Mem := fun j => if j = i then b else m j

/-- The first `n` bytes of a memory. -/
def readMem (m : Mem) (n : Nat) : List Nat := (List.range n).map m

/-- The library function `strcmp` on two buffers, comparing bytes as unsigned
values; the end of a buffer reads as the terminator. -/
def strcmp : List Nat → List Nat → Int
  | [], [] => 0
  | [], y :: _ => 0 - (y : Int)
  | x :: _, [] => (x : Int)
  | x :: xs, y :: ys =>
    if x ≠ y then (x : Int) - (y : Int)
    else if x = 0 then 0
    else strcmp xs ys

/-- The largest value of `size_t` (64-bit). -/
def SIZE_MAX : Nat := 2 ^ 64 - 1

/-- Subtraction of one in `size_t`, wrapping at zero. -/
def size_pred (n : Nat) : Nat := (n + SIZE_MAX) % (SIZE_MAX + 1)

/-- The two statements `strncpy(sp, str, bufsize - 1); sp[bufsize - 1] = 0` of
`q_remove_head` on the destination memory. -/
def copy_out (m : Mem) (str : List Nat) (bufsize : Nat) : Mem :=
  poke (strncpy m str (size_pred bufsize)) (size_pred bufsize) 0

/-! ## The operations of `queue.c` -/

/-- The function `q_new`; the argument tells whether `malloc` succeeded. -/
def q_new (alloc_ok : Bool) : Option queue_t :=
  if alloc_ok then some { head := 0, tail := 0, size := 0 } else none

/-- The value buffer filled by both insert functions: `malloc(len + 1)`,
`strncpy(value, s, len)` and `value[len] = 0`. -/
def copy_value (fresh : Mem) (s : List Nat) : List Nat :=
  let len := strlen s
  readMem (poke (strncpy fresh s len) len 0) (len + 1)

/-- The function `q_insert_head`.  `newh` is the result of the node `malloc`
(`0` on failure) and `vbuf` the result of the buffer `malloc` (`none` on
failure, otherwise the uninitialised contents). -/
def q_insert_head (h : Heap) (q : Option queue_t) (s : List Nat)
    (newh : Nat) (vbuf : Option Mem) : Heap × Option queue_t × Bool :=
  match q with
  | none => (h, none, false)
  | some q =>
    if newh = 0 then (h, some q, false)
    else match vbuf with
      | none => (h, some q, false)
      | some fresh =>
        let value := copy_value fresh s
        let q1 := if q.head = 0 then { q with tail := newh } else q
        let h1 := store h newh { value := some value, next := q1.head }
        (h1, some { q1 with head := newh, size := int_wrap (q1.size + 1) }, true)

/-- The function `q_insert_tail`, with the same allocation inputs.  The test is
on `q->tail`, and the store `q->tail->next = newt` goes wherever that pointer
points, a released node included. -/
def q_insert_tail (h : Heap) (q : Option queue_t) (s : List Nat)
    (newt : Nat) (vbuf : Option Mem) : Except Fault (Heap × Option queue_t × Bool) :=
  match q with
  | none => .ok (h, none, false)
  | some q =>
    if newt = 0 then .ok (h, some q, false)
    else match vbuf with
      | none => .ok (h, some q, false)
      | some fresh =>
        let value := copy_value fresh s
        let h1 := store h newt { value := some value, next := 0 }
        if q.tail = 0 then
          .ok (h1, some { q with head := newt, tail := newt,
                                 size := int_wrap (q.size + 1) }, true)
        else
          .ok (write_next h1 q.tail newt,
               some { q with tail := newt, size := int_wrap (q.size + 1) }, true)

/-- The function `q_remove_head`.  `sp` is the destination (`none` is NULL) and
`bufsize` its announced capacity, a `size_t`.  When `bufsize - 1` wraps to
`SIZE_MAX` the copy runs off the end of the destination and the call does not
get to unlink the node. -/
def q_remove_head (h : Heap) (q : Option queue_t) (sp : Option Mem) (bufsize : Nat) :
    Except Fault (Heap × Option queue_t × Option Mem × Bool) :=
  match q with
  | none => .ok (h, none, sp, false)
  | some q =>
    if q.head = 0 then .ok (h, some q, sp, false)
    else match load h q.head with
      | .error e => .error e
      | .ok nd =>
        let copied : Except Fault (Option Mem) :=
          match nd.value, sp with
          | some str, some m =>
            if SIZE_MAX ≤ size_pred bufsize then .error .overrun
            else .ok (some (copy_out m str bufsize))
          | _, _ => .ok sp
        match copied with
        | .error e => .error e
        | .ok sp1 =>
          let tmp := q.head
          let q1 := { q with head := nd.next, size := int_wrap (q.size - 1) }
          .ok (release h tmp, some q1, sp1, true)

/-- The function `q_size`. -/
def q_size (q : Option queue_t) : Int :=
  match q with
  | none => 0
  | some q => q.size

/-- The loop of `q_reverse`: `head` is `q->head`, the reversed prefix. -/
def reverse_loop : Nat → Heap → Nat → Nat → Except Fault (Heap × Nat)
  | 0, _, _, _ => .error .fuel
  | fuel + 1, h, head, cur =>
    if cur = 0 then .ok (h, head)
    else match load h cur with
      | .error e => .error e
      | .ok nd =>
        let next := nd.next
        reverse_loop fuel (store h cur { nd with next := head }) cur next

/-- The function `q_reverse`. -/
def q_reverse (fuel : Nat) (h : Heap) (q : Option queue_t) :
    Except Fault (Heap × Option queue_t) :=
  match q with
  | none => .ok (h, none)
  | some q =>
    if q.head = 0 then .ok (h, some q)
    else
      let cur := q.head
      let q1 := { q with tail := q.head }
      match reverse_loop fuel h 0 cur with
      | .error e => .error e
      | .ok (h1, head) => .ok (h1, some { q1 with head := head })

/-- The assignment `result_tail->next = x` of `merge`: `result_tail` is either
the address of the local `result` (`none`) or a heap node. -/
def set_tail_next (h : Heap) (result_next : Option Nat) (result_tail : Option Nat)
    (x : Nat) : Except Fault (Heap × Option Nat) :=
  match result_tail with
  | none => .ok (h, some x)
  | some t =>
    match setNext h t x with
    | .error e => .error e
    | .ok h1 => .ok (h1, result_next)

/-- The state of `merge` after its loop. -/
structure merge_state where
  heap : Heap
  result_next : Option Nat
  result_tail : Option Nat
  l_head : Nat
  r_head : Nat

/-- The `while (l_head && r_head)` loop of `merge`. -/
def merge_loop : Nat → Heap → Option Nat → Option Nat → Nat → Nat →
    Except Fault merge_state
  | 0, _, _, _, _, _ => .error .fuel
  | fuel + 1, h, result_next, result_tail, l_head, r_head =>
    if l_head ≠ 0 ∧ r_head ≠ 0 then
      match load h l_head, load h r_head with
      | .error e, _ => .error e
      | .ok _, .error e => .error e
      | .ok lnd, .ok rnd =>
        match lnd.value, rnd.value with
        | some lv, some rv =>
          let left := decide (strcmp lv rv ≤ 0)
          let target := if left then l_head else r_head
          match set_tail_next h result_next result_tail target with
          | .error e => .error e
          | .ok (h1, result_next1) =>
            match load h1 target with
            | .error e => .error e
            | .ok tnd =>
              if left then merge_loop fuel h1 result_next1 (some target) tnd.next r_head
              else merge_loop fuel h1 result_next1 (some target) l_head tnd.next
        | _, _ => .error .null
    else .ok ⟨h, result_next, result_tail, l_head, r_head⟩

/-- The statements of `merge` after its loop: the rest of the chain that is
not exhausted is linked behind `result_tail`. -/
def merge_rest (st : merge_state) : Except Fault (Heap × Option Nat) :=
  if st.l_head ≠ 0 then set_tail_next st.heap st.result_next st.result_tail st.l_head
  else if st.r_head ≠ 0 then set_tail_next st.heap st.result_next st.result_tail st.r_head
  else .ok (st.heap, st.result_next)

/-- The function `merge`; it returns `result.next`, which is uninitialised when
nothing was linked. -/
def merge (fuel : Nat) (h : Heap) (l_head r_head : Nat) : Except Fault (Heap × Nat) :=
  match merge_loop fuel h none none l_head r_head with
  | .error e => .error e
  | .ok st =>
    match merge_rest st with
    | .error e => .error e
    | .ok (h1, some p) => .ok (h1, p)
    | .ok (_, none) => .error .uninit

/-- The `for` loop of `merge_sort`: `n` times `r_head = r_head->next`. -/
def split_walk : Nat → Heap → Nat → Except Fault Nat
  | 0, _, r_head => .ok r_head
  | n + 1, h, r_head =>
    match load h r_head with
    | .error e => .error e
    | .ok nd => split_walk n h nd.next

/-- The function `merge_sort`. -/
def merge_sort : Nat → Heap → Nat → Int → Except Fault (Heap × Nat)
  | 0, _, _, _ => .error .fuel
  | fuel + 1, h, head, size =>
    if size ≤ 1 then .ok (h, head)
    else
      let half := size >>> (1 : Nat)
      let l_head := head
      match split_walk (half - 1).toNat h head with
      | .error e => .error e
      | .ok l_tail =>
        match load h l_tail with
        | .error e => .error e
        | .ok nd =>
          let r_head := nd.next
          let h1 := store h l_tail { nd with next := 0 }
          match merge_sort fuel h1 l_head half with
          | .error e => .error e
          | .ok (h2, l_result) =>
            match merge_sort fuel h2 r_head (size - half) with
            | .error e => .error e
            | .ok (h3, r_result) => merge fuel h3 l_result r_result

/-- The loop `while (q->tail->next) q->tail = q->tail->next` of `q_sort`. -/
def find_tail : Nat → Heap → Nat → Except Fault Nat
  | 0, _, _ => .error .fuel
  | fuel + 1, h, tail =>
    match load h tail with
    | .error e => .error e
    | .ok nd => if nd.next ≠ 0 then find_tail fuel h nd.next else .ok tail

/-- The function `q_sort`. -/
def q_sort (fuel : Nat) (h : Heap) (q : Option queue_t) :
    Except Fault (Heap × Option queue_t) :=
  match q with
  | none => .ok (h, none)
  | some q =>
    if q.head = 0 ∨ q_size (some q) ≤ 1 then .ok (h, some q)
    else
      match merge_sort fuel h q.head q.size with
      | .error e => .error e
      | .ok (h1, head) =>
        match find_tail fuel h1 head with
        | .error e => .error e
        | .ok tail => .ok (h1, some { q with head := head, tail := tail })

/-! ## Reading a queue -/

/-- The chain starting at `p` consists of exactly the nodes `ns`, in order, and
ends in NULL. -/
def isChain (h : Heap) : Nat → List Nat → Bool
  | p, [] => p == 0
  | p, n :: ns =>
    p == n && n != 0 &&
      (match h n with
       | some nd => isChain h nd.next ns
       | none => false)

/-- The value buffer of the node at `p` (empty when there is none). -/
def bufOf (h : Heap) (p : Nat) : List Nat :=
  match h p with
  | some nd => nd.value.getD []
  | none => []

/-- The text stored in the node at `p`. -/
def textOf (h : Heap) (p : Nat) : List Nat := cstr (bufOf h p)

/-- The node at `p` is live and owns a value buffer. -/
def hasValue (h : Heap) (p : Nat) : Bool :=
  match h p with
  | some nd => nd.value.isSome
  | none => false

/-- The pointers met from `p` by following links, at most `fuel` of them. -/
def chainFrom : Nat → Heap → Nat → List Nat
  | 0, _, _ => []
  | fuel + 1, h, p =>
    if p = 0 then []
    else match h p with
      | some nd => p :: chainFrom fuel h nd.next
      | none => [p]

/-- A well-formed queue with node sequence `ns`: the chain from head is `ns`
and ends in NULL, `size` is its length, tail is its last node (NULL when the
queue is empty), and every node owns a value buffer. -/
def wf (h : Heap) (q : queue_t) (ns : List Nat) : Prop :=
  isChain h q.head ns = true ∧ q.size = (ns.length : Int) ∧ q.tail = ns.getLastD 0 ∧
    ∀ p ∈ ns, hasValue h p = true

instance (h : Heap) (q : queue_t) (ns : List Nat) : Decidable (wf h q ns) :=
  inferInstanceAs (Decidable (_ ∧ _ ∧ _ ∧ _))

/-- The order used by `merge`: the left node is taken when `strcmp <= 0`. -/
def leBuf (a b : List Nat) : Bool := decide (strcmp a b ≤ 0)

/-! ## Notions used to state the results -/

/-- Two heaps hold the same live nodes with the same value buffers; only links
may differ. -/
def sameValues (h h' : Heap) : Prop :=
  ∀ a, (h' a).map (fun nd => nd.value) = (h a).map (fun nd => nd.value)

/-- The order on nodes induced by their keys. -/
def leKey (key : Nat → List Nat) (a b : Nat) : Bool := leBuf (key a) (key b)

/-- The effect of the write `result_tail->next = x`. -/
def linked (h : Heap) (rn rt : Option Nat) (x : Nat) (h' : Heap) (rn' : Option Nat) : Prop :=
  match rt with
  | none => rn' = some x
  | some t => rn' = rn ∧ ∃ nd, h t = some nd ∧ h' t = some { nd with next := x }

/-- Merge sort on a list of nodes, split as in `merge_sort`: the first
`length / 2` nodes go left. -/
def listSort (key : Nat → List Nat) (ns : List Nat) : List Nat :=
  if ns.length ≤ 1 then ns
  else
    List.merge (listSort key (ns.take (ns.length / 2)))
      (listSort key (ns.drop (ns.length / 2))) (leKey key)
termination_by ns.length
decreasing_by
  · simp only [List.length_take]; omega
  · simp only [List.length_drop]; omega

/-- Byte-wise lexicographic order on texts: smaller, or equal. -/
def lexLe (a b : List Nat) : Prop := List.Lex (fun x y => x < y) a b ∨ a = b

/-! ## An example queue -/

/-- Uninitialised memory as handed out by `malloc` in the examples. -/
def junk : Mem := fun _ => 170

/-- The string "banana". -/
def banana : List Nat := [98, 97, 110, 97, 110, 97, 0]

/-- The string "apple". -/
def apple : List Nat := [97, 112, 112, 108, 101, 0]

/-- The string "cherry". -/
def cherry : List Nat := [99, 104, 101, 114, 114, 121, 0]

/-- Insert a list of strings at the tail, the nodes being allocated at the given
addresses. -/
def insert_all : Heap → Option queue_t → List (List Nat × Nat) →
    Except Fault (Heap × Option queue_t)
  | h, q, [] => .ok (h, q)
  | h, q, (s, p) :: rest =>
    match q_insert_tail h q s p (some junk) with
    | .error e => .error e
    | .ok (h1, q1, _) => insert_all h1 q1 rest

/-- The state after inserting "banana", "apple", "cherry", "apple" at the tail of
a new queue, with nodes at the addresses 1, 2, 3, 4. -/
def fruit : Heap × queue_t :=
  match insert_all emptyHeap (q_new true) [(banana, 1), (apple, 2), (cherry, 3), (apple, 4)] with
  | .ok (h, some q) => (h, q)
  | _ => (emptyHeap, { head := 0, tail := 0, size := 0 })

/-! ## Sequences of calls -/

/-- A call of one of the five operations that change a queue, with its inputs
other than the queue.  For the insert functions these are the string, the
address returned by the node `malloc` (`0` on failure) and the result of the
buffer `malloc`; for `q_remove_head` the destination and its capacity. -/
inductive Op where
  | insert_head (s : List Nat) (newh : Nat) (vbuf : Option Mem)
  | insert_tail (s : List Nat) (newt : Nat) (vbuf : Option Mem)
  | remove_head (sp : Option Mem) (bufsize : Nat)
  | reverse
  | sort

/-- Run one call; the boolean is the value the call returns (`true` for the two
functions that return nothing). -/
def apply_op (fuel : Nat) (h : Heap) (q : Option queue_t) :
    Op → Except Fault (Heap × Option queue_t × Bool)
  | .insert_head s newh vbuf => .ok (q_insert_head h q s newh vbuf)
  | .insert_tail s newt vbuf => q_insert_tail h q s newt vbuf
  | .remove_head sp bufsize =>
    match q_remove_head h q sp bufsize with
    | .error e => .error e
    | .ok (h1, q1, _, b) => .ok (h1, q1, b)
  | .reverse =>
    match q_reverse fuel h q with
    | .error e => .error e
    | .ok (h1, q1) => .ok (h1, q1, true)
  | .sort =>
    match q_sort fuel h q with
    | .error e => .error e
    | .ok (h1, q1) => .ok (h1, q1, true)

/-- Run a sequence of calls one after the other and collect what they return. -/
def run_ops (fuel : Nat) : Heap → Option queue_t → List Op →
    Except Fault (Heap × Option queue_t × List Bool)
  | h, q, [] => .ok (h, q, [])
  | h, q, op :: ops =>
    match apply_op fuel h q op with
    | .error e => .error e
    | .ok (h1, q1, b) =>
      match run_ops fuel h1 q1 ops with
      | .error e => .error e
      | .ok (h2, q2, bs) => .ok (h2, q2, b :: bs)

/-- A heap holding `n` nodes at the addresses `1, ..., n`, each with the empty
string as value and linked to the next address; the last link is NULL. -/
def ramp (n : Nat) : Heap :=
  fun a =>
    if 1 ≤ a ∧ a ≤ n then some { value := some [0], next := if a = n then 0 else a + 1 }
    else none

/-- The queue of the `n` nodes of `ramp n`. -/
def ramp_queue (n : Nat) : queue_t :=
  { head := if n = 0 then 0 else 1, tail := n, size := (n : Int) }

/-- The queue after inserting "apple" at the tail of a new queue (node at
address 1) and removing it again. -/
def drained : Heap × queue_t :=
  match run_ops 0 emptyHeap (q_new true) [.insert_tail apple 1 (some junk), .remove_head none 0] with
  | .ok (h, some q, _) => (h, q)
  | _ => (emptyHeap, { head := 0, tail := 0, size := 0 })

/-! ## The reference merge -/

/-- One round of the reference merge with the left list `a :: l` fixed: walk
down the right list, putting its heads in front as long as `a` compares greater;
as soon as `a` compares less-than-or-equal take `a` and go on with `l` (by
`rest`); when the right list is exhausted append the left list. -/
def merge_ref_from (key : Nat → List Nat) (a : Nat) (l : List Nat)
    (rest : List Nat → List Nat) : List Nat → List Nat
  | [] => a :: l
  | b :: r =>
    if strcmp (key a) (key b) ≤ 0 then a :: rest (b :: r)
    else b :: merge_ref_from key a l rest r

/-- The reference merge, in the words of the specification: repeatedly take the
head of the left list when its value compares less-than-or-equal to the value of
the head of the right list, otherwise the head of the right list; when one side
is exhausted, append the rest of the other. -/
def merge_ref (key : Nat → List Nat) : List Nat → List Nat → List Nat
  | [] => fun r => r
  | a :: l => merge_ref_from key a l (merge_ref key l)

/-- A heap with two disjoint sorted chains: apple, cherry at the addresses 1, 3
and apple, banana at the addresses 2, 4. -/
def two_chains : Heap :=
  store (store (store (store emptyHeap 1 { value := some apple, next := 3 })
    3 { value := some cherry, next := 0 }) 2 { value := some apple, next := 4 })
    4 { value := some banana, next := 0 }

/-! ## Heap and chain lemmas -/

theorem store_same (h : Heap) (p : Nat) (nd : list_ele_t) : store h p nd p = some nd := by
  simp [store]

theorem store_other (h : Heap) (p a : Nat) (nd : list_ele_t) (hne : a ≠ p) :
    store h p nd a = h a := by
  simp [store, hne]

theorem load_ok {h : Heap} {p : Nat} {nd : list_ele_t} (hp : p ≠ 0) (hn : h p = some nd) :
    load h p = .ok nd := by
  simp [load, hp, hn]

theorem isChain_nil_iff (h : Heap) (p : Nat) : isChain h p [] = true ↔ p = 0 := by
  simp [isChain]

theorem isChain_cons_iff (h : Heap) (p n : Nat) (ns : List Nat) :
    isChain h p (n :: ns) = true ↔
      p = n ∧ n ≠ 0 ∧ ∃ nd, h n = some nd ∧ isChain h nd.next ns = true := by
  cases hn : h n <;> simp [isChain, hn, and_assoc]

theorem isChain_zero {h : Heap} {ns : List Nat} (hc : isChain h 0 ns = true) : ns = [] := by
  cases ns with
  | nil => rfl
  | cons n ns =>
    rw [isChain_cons_iff] at hc
    exact absurd hc.1.symm hc.2.1

theorem isChain_head {h : Heap} {p : Nat} {ns : List Nat} (hc : isChain h p ns = true) :
    p = ns.headD 0 := by
  cases ns with
  | nil => simpa [isChain] using hc
  | cons n ns => exact ((isChain_cons_iff h p n ns).1 hc).1

theorem isChain_ne_zero {h : Heap} {p : Nat} {ns : List Nat} (hc : isChain h p ns = true) :
    ∀ a ∈ ns, a ≠ 0 := by
  induction ns generalizing p with
  | nil => simp
  | cons n ns ih =>
    obtain ⟨-, hn, nd, -, hrest⟩ := (isChain_cons_iff h p n ns).1 hc
    intro a ha
    rcases List.mem_cons.1 ha with rfl | ha
    · exact hn
    · exact ih hrest a ha

theorem isChain_live {h : Heap} {p : Nat} {ns : List Nat} (hc : isChain h p ns = true) :
    ∀ a ∈ ns, ∃ nd, h a = some nd := by
  induction ns generalizing p with
  | nil => simp
  | cons n ns ih =>
    obtain ⟨-, -, nd, hnd, hrest⟩ := (isChain_cons_iff h p n ns).1 hc
    intro a ha
    rcases List.mem_cons.1 ha with rfl | ha
    · exact ⟨nd, hnd⟩
    · exact ih hrest a ha

/-- A chain determines its node sequence. -/
theorem isChain_unique {h : Heap} {p : Nat} {ns ms : List Nat}
    (h1 : isChain h p ns = true) (h2 : isChain h p ms = true) : ns = ms := by
  induction ns generalizing p ms with
  | nil =>
    rw [isChain_nil_iff] at h1
    subst h1
    exact (isChain_zero h2).symm
  | cons n ns ih =>
    obtain ⟨rfl, hn, nd, hnd, hrest⟩ := (isChain_cons_iff h p n ns).1 h1
    cases ms with
    | nil => exact absurd ((isChain_nil_iff h p).1 h2) hn
    | cons m ms =>
      obtain ⟨rfl, -, nd2, hnd2, hrest2⟩ := (isChain_cons_iff h p m ms).1 h2
      rw [hnd] at hnd2
      cases hnd2
      rw [ih hrest hrest2]

/-- The part of a chain behind a prefix is a chain. -/
theorem isChain_suffix {h : Heap} {p : Nat} {xs ys : List Nat}
    (hc : isChain h p (xs ++ ys) = true) : isChain h (ys.headD 0) ys = true := by
  induction xs generalizing p with
  | nil =>
    have := isChain_head hc
    simp only [List.nil_append] at this hc
    rwa [← this]
  | cons x xs ih =>
    obtain ⟨-, -, nd, -, hrest⟩ := (isChain_cons_iff h p x (xs ++ ys)).1 hc
    exact ih hrest

/-- A chain that ends in NULL visits no node twice. -/
theorem isChain_nodup {h : Heap} {p : Nat} {ns : List Nat} (hc : isChain h p ns = true) :
    ns.Nodup := by
  induction ns generalizing p with
  | nil => exact List.nodup_nil
  | cons n ns ih =>
    obtain ⟨rfl, hn, nd, hnd, hrest⟩ := (isChain_cons_iff h p n ns).1 hc
    refine List.nodup_cons.2 ⟨?_, ih hrest⟩
    intro hmem
    obtain ⟨s, t, hst⟩ := List.append_of_mem hmem
    have h3 : isChain h p (p :: t) = true := by
      have := @isChain_suffix h p (p :: s) (p :: t) (by simpa [hst] using hc)
      simpa using this
    have := isChain_unique hc h3
    have hl := congrArg List.length this
    simp [hst] at hl
    omega

/-- A chain only depends on the nodes it visits. -/
theorem isChain_frame {h h' : Heap} {p : Nat} {ns : List Nat}
    (hc : isChain h p ns = true) (hf : ∀ a ∈ ns, h' a = h a) : isChain h' p ns = true := by
  induction ns generalizing p with
  | nil => simpa [isChain] using hc
  | cons n ns ih =>
    obtain ⟨rfl, hn, nd, hnd, hrest⟩ := (isChain_cons_iff h p n ns).1 hc
    refine (isChain_cons_iff h' p p ns).2 ⟨rfl, hn, nd, ?_, ?_⟩
    · rw [hf p (List.mem_cons_self _ _), hnd]
    · exact ih hrest (fun a ha => hf a (List.mem_cons_of_mem _ ha))

theorem getLastD_mem {l : List Nat} (hne : l ≠ []) (d : Nat) : l.getLastD d ∈ l := by
  rw [List.getLastD_eq_getLast?, List.getLast?_eq_getLast _ hne]
  exact List.getLast_mem hne

theorem isChain_head' {h : Heap} {p : Nat} {ns : List Nat} (hc : isChain h p ns = true) :
    p = ns.head?.getD 0 := by
  simpa using isChain_head hc

theorem sameValues_refl (h : Heap) : sameValues h h := fun _ => rfl

theorem sameValues_trans {h1 h2 h3 : Heap} (h12 : sameValues h1 h2) (h23 : sameValues h2 h3) :
    sameValues h1 h3 := fun a => (h23 a).trans (h12 a)

theorem sameValues_store {h : Heap} {p x : Nat} {nd : list_ele_t} (hp : h p = some nd) :
    sameValues h (store h p { nd with next := x }) := by
  intro a
  by_cases ha : a = p
  · subst ha; simp [store, hp]
  · simp [store, ha]

theorem sameValues_bufOf {h h' : Heap} (hs : sameValues h h') (a : Nat) :
    bufOf h' a = bufOf h a := by
  have := hs a
  unfold bufOf
  cases h1 : h' a <;> cases h2 : h a <;> simp_all

theorem sameValues_hasValue {h h' : Heap} (hs : sameValues h h') (a : Nat) :
    hasValue h' a = hasValue h a := by
  have := hs a
  unfold hasValue
  cases h1 : h' a <;> cases h2 : h a <;> simp_all

/-- The loop of `q_reverse` turns the remaining chain `rest` around and puts it
in front of the part `done` reversed so far. -/
theorem reverse_loop_spec (rest : List Nat) :
    ∀ (fuel : Nat) (h : Heap) (head cur : Nat) (done : List Nat),
      isChain h cur rest = true → isChain h head done = true →
      (∀ a ∈ rest, a ∉ done) → rest.length < fuel →
      ∃ h', reverse_loop fuel h head cur = .ok (h', (rest.reverse ++ done).headD 0) ∧
        isChain h' ((rest.reverse ++ done).headD 0) (rest.reverse ++ done) = true ∧
        (∀ a, a ∉ rest → h' a = h a) ∧ sameValues h h' := by
  induction rest with
  | nil =>
    intro fuel h head cur done hc hd _ hf
    rw [isChain_nil_iff] at hc
    subst hc
    obtain ⟨f, rfl⟩ : ∃ f, fuel = f + 1 := ⟨fuel - 1, by simp at hf; omega⟩
    refine ⟨h, ?_, ?_, fun _ _ => rfl, sameValues_refl h⟩
    · simp [reverse_loop, isChain_head hd]
    · have e := isChain_head hd
      simp only [List.reverse_nil, List.nil_append]
      rw [← e]; exact hd
  | cons n ns ih =>
    intro fuel h head cur done hc hd hdis hf
    obtain ⟨rfl, hn, nd, hnd, hrest⟩ := (isChain_cons_iff h cur n ns).1 hc
    obtain ⟨f, rfl⟩ : ∃ f, fuel = f + 1 := ⟨fuel - 1, by simp at hf; omega⟩
    have hnodup := isChain_nodup hc
    have hnns : cur ∉ ns := (List.nodup_cons.1 hnodup).1
    have hnd' : cur ∉ done := hdis cur (List.mem_cons_self _ _)
    let h1 := store h cur { nd with next := head }
    have c1 : isChain h1 nd.next ns = true :=
      isChain_frame hrest (fun a ha => store_other h cur a _ (fun e => hnns (e ▸ ha)))
    have c2 : isChain h1 cur (cur :: done) = true := by
      refine (isChain_cons_iff h1 cur cur done).2 ⟨rfl, hn, _, store_same h cur _, ?_⟩
      exact isChain_frame hd (fun a ha => store_other h cur a _ (fun e => hnd' (e ▸ ha)))
    have hdis' : ∀ a ∈ ns, a ∉ cur :: done := by
      intro a ha hmem
      rcases List.mem_cons.1 hmem with rfl | hmem
      · exact hnns ha
      · exact hdis a (List.mem_cons_of_mem _ ha) hmem
    obtain ⟨h', hrun, hch, hfr, hsv⟩ :=
      ih f h1 cur nd.next (cur :: done) c1 c2 hdis' (by simp at hf; omega)
    refine ⟨h', ?_, ?_, ?_, ?_⟩
    · simp only [reverse_loop, hn, if_false, load_ok hn hnd]
      simpa using hrun
    · simpa using hch
    · intro a ha
      have ha1 : a ≠ cur := fun e => ha (e ▸ List.mem_cons_self _ _)
      have ha2 : a ∉ ns := fun e => ha (List.mem_cons_of_mem _ e)
      rw [hfr a ha2]
      exact store_other h cur a _ ha1
    · exact sameValues_trans (sameValues_store hnd) hsv

theorem set_tail_next_spec (h : Heap) (rn rt : Option Nat) (x : Nat)
    (hrt : ∀ t, rt = some t → t ≠ 0 ∧ ∃ nd, h t = some nd) :
    ∃ h' rn', set_tail_next h rn rt x = .ok (h', rn') ∧ linked h rn rt x h' rn' ∧
      (∀ a, rt ≠ some a → h' a = h a) ∧ sameValues h h' := by
  cases rt with
  | none =>
    exact ⟨h, some x, rfl, rfl, fun _ _ => rfl, sameValues_refl h⟩
  | some t =>
    obtain ⟨ht0, nd, hnd⟩ := hrt t rfl
    refine ⟨store h t { nd with next := x }, rn, ?_, ⟨rfl, nd, hnd, store_same h t _⟩, ?_,
      sameValues_store hnd⟩
    · simp [set_tail_next, setNext, load_ok ht0 hnd]
    · intro a ha
      exact store_other h t a _ (fun e => ha (by rw [e]))

/-- The loop of `merge` followed by the final link computes the list merge of the
two chains and links it behind `result_tail`. -/
theorem merge_loop_spec (key : Nat → List Nat) :
    ∀ (fuel : Nat) (L R : List Nat) (h : Heap) (rn rt : Option Nat) (l r : Nat),
      isChain h l L = true → isChain h r R = true → (∀ a ∈ L, a ∉ R) →
      (∀ a, a ∈ L ∨ a ∈ R → ∃ nd, h a = some nd ∧ nd.value = some (key a)) →
      (∀ t, rt = some t → t ≠ 0 ∧ t ∉ L ∧ t ∉ R ∧ ∃ nd, h t = some nd) →
      (L ≠ [] ∨ R ≠ []) → L.length + R.length ≤ fuel →
      ∃ st h' rn', merge_loop fuel h rn rt l r = .ok st ∧ merge_rest st = .ok (h', rn') ∧
        isChain h' ((List.merge L R (leKey key)).headD 0) (List.merge L R (leKey key)) = true ∧
        linked h rn rt ((List.merge L R (leKey key)).headD 0) h' rn' ∧
        (∀ a, a ∉ L → a ∉ R → rt ≠ some a → h' a = h a) ∧ sameValues h h' := by
  intro fuel
  induction fuel with
  | zero =>
    intro L R h rn rt l r _ _ _ _ _ hne hf
    have h1 : L.length = 0 := by omega
    have h2 : R.length = 0 := by omega
    rcases hne with hne | hne
    · exact absurd (List.length_eq_zero.1 h1) hne
    · exact absurd (List.length_eq_zero.1 h2) hne
  | succ f ih =>
    intro L R h rn rt l r hL hR hdis hval hrt hne hf
    have hrt' : ∀ t, rt = some t → t ≠ 0 ∧ ∃ nd, h t = some nd :=
      fun t ht => ⟨(hrt t ht).1, (hrt t ht).2.2.2⟩
    cases L with
    | nil =>
      rw [isChain_nil_iff] at hL
      subst hL
      cases R with
      | nil => simp at hne
      | cons b R' =>
        obtain ⟨rfl, hb, -⟩ := (isChain_cons_iff h r b R').1 hR
        obtain ⟨h', rn', hset, hlink, hfr, hsv⟩ := set_tail_next_spec h rn rt r hrt'
        refine ⟨⟨h, rn, rt, 0, r⟩, h', rn', ?_, ?_, ?_, ?_, ?_, hsv⟩
        · simp [merge_loop]
        · simp [merge_rest, hb, hset]
        · simp only [List.nil_merge, List.headD_cons]
          refine isChain_frame hR (fun a ha => hfr a ?_)
          rintro rfl
          exact (hrt a rfl).2.2.1 ha
        · simpa using hlink
        · intro a _ _ ha
          exact hfr a ha
    | cons a L' =>
      obtain ⟨rfl, ha, lnd, hlnd, hL'⟩ := (isChain_cons_iff h l a L').1 hL
      cases R with
      | nil =>
        rw [isChain_nil_iff] at hR
        subst hR
        obtain ⟨h', rn', hset, hlink, hfr, hsv⟩ := set_tail_next_spec h rn rt l hrt'
        refine ⟨⟨h, rn, rt, l, 0⟩, h', rn', ?_, ?_, ?_, ?_, ?_, hsv⟩
        · simp [merge_loop]
        · simp [merge_rest, ha, hset]
        · simp only [List.merge_right, List.headD_cons]
          refine isChain_frame hL (fun x hx => hfr x ?_)
          rintro rfl
          exact (hrt x rfl).2.1 hx
        · simpa using hlink
        · intro x _ _ hx
          exact hfr x hx
      | cons b R' =>
        obtain ⟨rfl, hb, rnd, hrnd, hR'⟩ := (isChain_cons_iff h r b R').1 hR
        obtain ⟨lnd2, hl2, hlv⟩ := hval l (Or.inl (List.mem_cons_self _ _))
        obtain ⟨rnd2, hr2, hrv⟩ := hval r (Or.inr (List.mem_cons_self _ _))
        rw [hlnd] at hl2; cases hl2
        rw [hrnd] at hr2; cases hr2
        have hLnd := isChain_nodup hL
        have hRnd := isChain_nodup hR
        have hlL' : l ∉ L' := (List.nodup_cons.1 hLnd).1
        have hrR' : r ∉ R' := (List.nodup_cons.1 hRnd).1
        have hlR : l ∉ r :: R' := hdis l (List.mem_cons_self _ _)
        by_cases hle : leKey key l r = true
        · -- the left node is taken
          obtain ⟨h1, rn1, hset, hlink, hfr, hsv⟩ := set_tail_next_spec h rn rt l hrt'
          have hrtl : rt ≠ some l := fun e => (hrt l e).2.1 (List.mem_cons_self _ _)
          have h1l : h1 l = some lnd := by rw [hfr l hrtl, hlnd]
          have hframe : ∀ x, x ∈ L' ∨ x ∈ r :: R' → h1 x = h x := by
            intro x hx
            apply hfr x
            rintro rfl
            rcases hx with hx | hx
            · exact (hrt x rfl).2.1 (List.mem_cons_of_mem _ hx)
            · exact (hrt x rfl).2.2.1 hx
          obtain ⟨st, h', rn', hrun, hrest, hch, hlk, hfr2, hsv2⟩ :=
            ih L' (r :: R') h1 rn1 (some l) lnd.next r
              (isChain_frame hL' (fun x hx => hframe x (Or.inl hx)))
              (isChain_frame hR (fun x hx => hframe x (Or.inr hx)))
              (fun x hx => hdis x (List.mem_cons_of_mem _ hx))
              (fun x hx => by
                rw [hframe x hx]
                exact hval x (hx.imp (List.mem_cons_of_mem _) id))
              (fun t ht => by
                cases ht
                exact ⟨ha, hlL', hlR, lnd, h1l⟩)
              (Or.inr (by simp)) (by simp at hf ⊢; omega)
          obtain ⟨hrn', nd', hnd', hh'l⟩ := hlk
          rw [h1l] at hnd'; cases hnd'
          refine ⟨st, h', rn', ?_, hrest, ?_, ?_, ?_, sameValues_trans hsv hsv2⟩
          · have hdec : decide (strcmp (key l) (key r) ≤ 0) = true := by
              simpa [leKey, leBuf] using hle
            simp only [merge_loop, ha, hb, ne_eq, not_false_eq_true, and_self, if_true,
              load_ok ha hlnd, load_ok hb hrnd, hlv, hrv, hdec, hset, load_ok ha h1l]
            exact hrun
          · rw [List.cons_merge_cons_pos _ _ _ hle]
            exact (isChain_cons_iff h' l l _).2 ⟨rfl, ha, _, hh'l, hch⟩
          · rw [List.cons_merge_cons_pos _ _ _ hle]
            simp only [List.headD_cons]
            cases rt with
            | none => simp only [linked] at hlink ⊢; rw [hrn', hlink]
            | some t =>
              obtain ⟨e1, ndt, hndt, h1t⟩ := hlink
              obtain ⟨-, htL, htR, -⟩ := hrt t rfl
              refine ⟨hrn'.trans e1, ndt, hndt, ?_⟩
              rw [hfr2 t (fun e => htL (List.mem_cons_of_mem _ e)) htR
                (fun e => htL (by cases e; exact List.mem_cons_self _ _)), h1t]
          · intro x hxL hxR hx
            rw [hfr2 x (fun e => hxL (List.mem_cons_of_mem _ e)) hxR
              (fun e => hxL (by cases e; exact List.mem_cons_self _ _)), hfr x hx]
        · -- the right node is taken
          obtain ⟨h1, rn1, hset, hlink, hfr, hsv⟩ := set_tail_next_spec h rn rt r hrt'
          have hrtr : rt ≠ some r := fun e => (hrt r e).2.2.1 (List.mem_cons_self _ _)
          have h1r : h1 r = some rnd := by rw [hfr r hrtr, hrnd]
          have hframe : ∀ x, x ∈ l :: L' ∨ x ∈ R' → h1 x = h x := by
            intro x hx
            apply hfr x
            rintro rfl
            rcases hx with hx | hx
            · exact (hrt x rfl).2.1 hx
            · exact (hrt x rfl).2.2.1 (List.mem_cons_of_mem _ hx)
          have hrL : r ∉ l :: L' := fun e => hdis r e (List.mem_cons_self _ _)
          obtain ⟨st, h', rn', hrun, hrest, hch, hlk, hfr2, hsv2⟩ :=
            ih (l :: L') R' h1 rn1 (some r) l rnd.next
              (isChain_frame hL (fun x hx => hframe x (Or.inl hx)))
              (isChain_frame hR' (fun x hx => hframe x (Or.inr hx)))
              (fun x hx hx' => hdis x hx (List.mem_cons_of_mem _ hx'))
              (fun x hx => by
                rw [hframe x hx]
                exact hval x (hx.imp id (List.mem_cons_of_mem _)))
              (fun t ht => by
                cases ht
                exact ⟨hb, hrL, hrR', rnd, h1r⟩)
              (Or.inl (by simp)) (by simp at hf ⊢; omega)
          obtain ⟨hrn', nd', hnd', hh'r⟩ := hlk
          rw [h1r] at hnd'; cases hnd'
          refine ⟨st, h', rn', ?_, hrest, ?_, ?_, ?_, sameValues_trans hsv hsv2⟩
          · have hdec : decide (strcmp (key l) (key r) ≤ 0) = false := by
              simpa [leKey, leBuf] using hle
            simp only [merge_loop, ha, hb, ne_eq, not_false_eq_true, and_self, if_true,
              load_ok ha hlnd, load_ok hb hrnd, hlv, hrv, hdec, Bool.false_eq_true, if_false,
              hset, load_ok hb h1r]
            exact hrun
          · rw [List.cons_merge_cons_neg _ _ _ hle]
            exact (isChain_cons_iff h' r r _).2 ⟨rfl, hb, _, hh'r, hch⟩
          · rw [List.cons_merge_cons_neg _ _ _ hle]
            simp only [List.headD_cons]
            cases rt with
            | none => simp only [linked] at hlink ⊢; rw [hrn', hlink]
            | some t =>
              obtain ⟨e1, ndt, hndt, h1t⟩ := hlink
              obtain ⟨-, htL, htR, -⟩ := hrt t rfl
              refine ⟨hrn'.trans e1, ndt, hndt, ?_⟩
              rw [hfr2 t htL (fun e => htR (List.mem_cons_of_mem _ e))
                (fun e => htR (by cases e; exact List.mem_cons_self _ _)), h1t]
          · intro x hxL hxR hx
            rw [hfr2 x hxL (fun e => hxR (List.mem_cons_of_mem _ e))
              (fun e => hxR (by cases e; exact List.mem_cons_self _ _)), hfr x hx]

/-! ## The order decided by `strcmp` -/

theorem strcmp_nil_le (b : List Nat) : strcmp [] b ≤ 0 := by
  cases b with
  | nil => simp [strcmp]
  | cons y ys => simp [strcmp]

theorem strcmp_cons_nil_le (x : Nat) (xs : List Nat) : strcmp (x :: xs) [] ≤ 0 ↔ x = 0 := by
  simp [strcmp]

theorem strcmp_cons_cons_le (x y : Nat) (xs ys : List Nat) :
    strcmp (x :: xs) (y :: ys) ≤ 0 ↔ x < y ∨ (x = y ∧ (x = 0 ∨ strcmp xs ys ≤ 0)) := by
  simp only [strcmp]
  by_cases hxy : x = y
  · subst hxy
    by_cases hx : x = 0
    · simp [hx]
    · simp [hx]
  · simp only [ne_eq, hxy, not_false_eq_true, if_true, false_and, or_false]
    omega

theorem strcmp_total (a b : List Nat) : strcmp a b ≤ 0 ∨ strcmp b a ≤ 0 := by
  induction a generalizing b with
  | nil => exact Or.inl (strcmp_nil_le b)
  | cons x xs ih =>
    cases b with
    | nil => exact Or.inr (strcmp_nil_le _)
    | cons y ys =>
      rw [strcmp_cons_cons_le, strcmp_cons_cons_le]
      rcases Nat.lt_trichotomy x y with h | h | h
      · exact Or.inl (Or.inl h)
      · subst h
        rcases ih ys with h | h
        · exact Or.inl (Or.inr ⟨rfl, Or.inr h⟩)
        · exact Or.inr (Or.inr ⟨rfl, Or.inr h⟩)
      · exact Or.inr (Or.inl h)

theorem strcmp_trans (a b c : List Nat) (hab : strcmp a b ≤ 0) (hbc : strcmp b c ≤ 0) :
    strcmp a c ≤ 0 := by
  induction a generalizing b c with
  | nil => exact strcmp_nil_le c
  | cons x xs ih =>
    cases b with
    | nil =>
      rw [strcmp_cons_nil_le] at hab
      subst hab
      cases c with
      | nil => simp [strcmp]
      | cons z zs =>
        rw [strcmp_cons_cons_le]
        rcases Nat.eq_zero_or_pos z with hz | hz
        · exact Or.inr ⟨hz.symm, Or.inl rfl⟩
        · exact Or.inl hz
    | cons y ys =>
      rw [strcmp_cons_cons_le] at hab
      cases c with
      | nil =>
        rw [strcmp_cons_nil_le] at hbc ⊢
        subst hbc
        rcases hab with h | ⟨h, -⟩
        · omega
        · exact h
      | cons z zs =>
        rw [strcmp_cons_cons_le] at hbc ⊢
        rcases hab with h1 | ⟨rfl, h1⟩
        · rcases hbc with h2 | ⟨rfl, -⟩
          · exact Or.inl (by omega)
          · exact Or.inl h1
        · rcases hbc with h2 | ⟨rfl, h2⟩
          · exact Or.inl h2
          · refine Or.inr ⟨rfl, ?_⟩
            rcases h1 with h1 | h1
            · exact Or.inl h1
            · rcases h2 with h2 | h2
              · exact Or.inl h2
              · exact Or.inr (ih ys zs h1 h2)

theorem leKey_total (key : Nat → List Nat) (a b : Nat) :
    (leKey key a b || leKey key b a) = true := by
  rcases strcmp_total (key a) (key b) with h | h <;> simp [leKey, leBuf, h]

theorem leKey_trans (key : Nat → List Nat) (a b c : Nat)
    (hab : leKey key a b = true) (hbc : leKey key b c = true) : leKey key a c = true := by
  simp only [leKey, leBuf, decide_eq_true_eq] at *
  exact strcmp_trans _ _ _ hab hbc

/-! ## The list-level merge sort that `merge_sort` computes -/

theorem listSort_small (key : Nat → List Nat) (ns : List Nat) (h : ns.length ≤ 1) :
    listSort key ns = ns := by
  rw [listSort, if_pos h]

theorem listSort_big (key : Nat → List Nat) (ns : List Nat) (h : ¬ ns.length ≤ 1) :
    listSort key ns =
      List.merge (listSort key (ns.take (ns.length / 2)))
        (listSort key (ns.drop (ns.length / 2))) (leKey key) := by
  rw [listSort, if_neg h]

theorem listSort_perm (key : Nat → List Nat) (ns : List Nat) :
    (listSort key ns).Perm ns := by
  obtain ⟨n, hn⟩ : ∃ n, ns.length = n := ⟨_, rfl⟩
  induction n using Nat.strong_induction_on generalizing ns with
  | _ n ih =>
    subst hn
    by_cases h : ns.length ≤ 1
    · rw [listSort_small key ns h]
    · rw [listSort_big key ns h]
      have h1 := ih (ns.take (ns.length / 2)).length
        (by simp only [List.length_take]; omega) _ rfl
      have h2 := ih (ns.drop (ns.length / 2)).length
        (by simp only [List.length_drop]; omega) _ rfl
      refine (List.merge_perm_append (leKey key)).trans ?_
      have := h1.append h2
      rwa [List.take_append_drop] at this

theorem listSort_sorted (key : Nat → List Nat) (ns : List Nat) :
    (listSort key ns).Pairwise (fun a b => leKey key a b = true) := by
  obtain ⟨n, hn⟩ : ∃ n, ns.length = n := ⟨_, rfl⟩
  induction n using Nat.strong_induction_on generalizing ns with
  | _ n ih =>
    subst hn
    by_cases h : ns.length ≤ 1
    · rw [listSort_small key ns h]
      match ns, h with
      | [], _ => exact List.Pairwise.nil
      | [a], _ => exact List.pairwise_singleton _ _
      | _ :: _ :: _, h => simp at h
    · rw [listSort_big key ns h]
      have h1 := ih (ns.take (ns.length / 2)).length
        (by simp only [List.length_take]; omega) _ rfl
      have h2 := ih (ns.drop (ns.length / 2)).length
        (by simp only [List.length_drop]; omega) _ rfl
      exact @List.sorted_merge _ (leKey key) (leKey_trans key) (leKey_total key) _ _ h1 h2

theorem sublist_merge_left (le : Nat → Nat → Bool) (L R : List Nat) :
    L.Sublist (List.merge L R le) := by
  induction L generalizing R with
  | nil => exact List.nil_sublist _
  | cons x xs ih =>
    induction R with
    | nil => simp
    | cons y ys ih2 =>
      rw [List.cons_merge_cons]
      split
      · exact (ih (y :: ys)).cons₂ x
      · exact ih2.cons y

theorem sublist_merge_right (le : Nat → Nat → Bool) (L R : List Nat) :
    R.Sublist (List.merge L R le) := by
  induction L generalizing R with
  | nil => simp
  | cons x xs ih =>
    induction R with
    | nil => exact List.nil_sublist _
    | cons y ys ih2 =>
      rw [List.cons_merge_cons]
      split
      · exact (ih (y :: ys)).cons x
      · exact ih2.cons₂ y

/-- In the merge of a sorted left list with a right list, a left node stays in
front of every right node it compares less-than-or-equal to. -/
theorem pair_sublist_merge (le : Nat → Nat → Bool)
    (trans : ∀ a b c, le a b = true → le b c = true → le a c = true)
    (L R : List Nat) (hL : L.Pairwise (fun a b => le a b = true))
    (a b : Nat) (ha : a ∈ L) (hb : b ∈ R) (hab : le a b = true) :
    [a, b].Sublist (List.merge L R le) := by
  induction L generalizing R with
  | nil => simp at ha
  | cons x xs ih =>
    induction R with
    | nil => simp at hb
    | cons y ys ih2 =>
      rw [List.cons_merge_cons]
      have hxa : le x b = true := by
        rcases List.mem_cons.1 ha with rfl | ha'
        · exact hab
        · exact trans _ _ _ (List.rel_of_pairwise_cons hL ha') hab
      split
      · rcases List.mem_cons.1 ha with rfl | ha'
        · exact (List.singleton_sublist.2 (List.mem_merge_right le hb)).cons₂ a
        · exact (ih (y :: ys) hL.tail ha' hb).cons x
      · rename_i hxy
        rcases List.mem_cons.1 hb with rfl | hb'
        · exact absurd hxa hxy
        · exact (ih2 hb').cons y

/-- The list-level sort is stable. -/
theorem listSort_stable (key : Nat → List Nat) (ns : List Nat) (a b : Nat)
    (hab : leKey key a b = true) (hs : [a, b].Sublist ns) :
    [a, b].Sublist (listSort key ns) := by
  obtain ⟨n, hn⟩ : ∃ n, ns.length = n := ⟨_, rfl⟩
  induction n using Nat.strong_induction_on generalizing ns with
  | _ n ih =>
    subst hn
    by_cases h : ns.length ≤ 1
    · rwa [listSort_small key ns h]
    · rw [listSort_big key ns h]
      have h1 := ih (ns.take (ns.length / 2)).length
        (by simp only [List.length_take]; omega) (ns.take (ns.length / 2))
      have h2 := ih (ns.drop (ns.length / 2)).length
        (by simp only [List.length_drop]; omega) (ns.drop (ns.length / 2))
      rw [← List.take_append_drop (ns.length / 2) ns, List.sublist_append_iff] at hs
      obtain ⟨l1, l2, hl, hs1, hs2⟩ := hs
      match l1, hl, hs1 with
      | [], hl, _ =>
        simp only [List.nil_append] at hl
        subst hl
        exact (h2 hs2 rfl).trans (sublist_merge_right _ _ _)
      | [x], hl, hs1 =>
        simp only [List.singleton_append, List.cons.injEq] at hl
        obtain ⟨rfl, rfl⟩ := hl
        have ha : a ∈ listSort key (ns.take (ns.length / 2)) :=
          (listSort_perm key _).mem_iff.2 (List.singleton_sublist.1 hs1)
        have hb : b ∈ listSort key (ns.drop (ns.length / 2)) :=
          (listSort_perm key _).mem_iff.2 (List.singleton_sublist.1 hs2)
        exact pair_sublist_merge _ (leKey_trans key) _ _ (listSort_sorted key _) a b ha hb hab
      | [x, y], hl, hs1 =>
        simp only [List.cons_append, List.nil_append, List.cons.injEq] at hl
        obtain ⟨rfl, rfl, -⟩ := hl
        exact (h1 hs1 rfl).trans (sublist_merge_left _ _ _)
      | _ :: _ :: _ :: _, hl, _ =>
        have := congrArg List.length hl
        simp at this

/-- The function `merge` on two disjoint chains, not both empty, returns the chain
of their list merge. -/
theorem merge_spec (key : Nat → List Nat) (fuel : Nat) (L R : List Nat) (h : Heap) (l r : Nat)
    (hL : isChain h l L = true) (hR : isChain h r R = true) (hdis : ∀ a ∈ L, a ∉ R)
    (hval : ∀ a, a ∈ L ∨ a ∈ R → ∃ nd, h a = some nd ∧ nd.value = some (key a))
    (hne : L ≠ [] ∨ R ≠ []) (hf : L.length + R.length ≤ fuel) :
    ∃ h', merge fuel h l r = .ok (h', (List.merge L R (leKey key)).headD 0) ∧
      isChain h' ((List.merge L R (leKey key)).headD 0) (List.merge L R (leKey key)) = true ∧
      (∀ a, a ∉ L → a ∉ R → h' a = h a) ∧ sameValues h h' := by
  obtain ⟨st, h', rn', hrun, hrest, hch, hlk, hfr, hsv⟩ :=
    merge_loop_spec key fuel L R h none none l r hL hR hdis hval (fun t ht => by cases ht)
      hne hf
  simp only [linked] at hlk
  subst hlk
  refine ⟨h', ?_, hch, fun a ha hb => hfr a ha hb (by simp), hsv⟩
  simp [merge, hrun, hrest]

/-- The walk to the split point and the cut `l_tail->next = NULL`. -/
theorem split_spec (xs : List Nat) :
    ∀ (ys : List Nat) (h : Heap) (p : Nat), xs ≠ [] → isChain h p (xs ++ ys) = true →
      ∃ nd, split_walk (xs.length - 1) h p = .ok (xs.getLastD 0) ∧
        xs.getLastD 0 ≠ 0 ∧ h (xs.getLastD 0) = some nd ∧ nd.next = ys.headD 0 ∧
        isChain (store h (xs.getLastD 0) { nd with next := 0 }) p xs = true ∧
        isChain (store h (xs.getLastD 0) { nd with next := 0 }) (ys.headD 0) ys = true := by
  induction xs with
  | nil => intro ys h p hne; exact absurd rfl hne
  | cons x xs ih =>
    intro ys h p _ hc
    have hnodup := isChain_nodup hc
    obtain ⟨rfl, hx, nd, hnd, hrest⟩ := (isChain_cons_iff h p x (xs ++ ys)).1 hc
    have hpn : p ∉ xs ++ ys := (List.nodup_cons.1 hnodup).1
    cases xs with
    | nil =>
      simp only [List.nil_append] at hrest hpn
      refine ⟨nd, rfl, hx, hnd, isChain_head hrest, ?_, ?_⟩
      · exact (isChain_cons_iff _ p p []).2 ⟨rfl, hx, _, store_same h p _, rfl⟩
      · rw [← isChain_head hrest]
        exact isChain_frame hrest (fun a ha => store_other h p a _ (fun e => hpn (e ▸ ha)))
    | cons x' xs' =>
      obtain ⟨nd', hwalk, hl0, hlast, hnext, hc1, hc2⟩ :=
        ih ys h nd.next (by simp) hrest
      have hlast_mem : (x' :: xs').getLastD 0 ∈ x' :: xs' := getLastD_mem (by simp) 0
      have hne : (x' :: xs').getLastD 0 ≠ p := by
        intro e
        apply hpn
        rw [← e]
        exact List.mem_append_left _ hlast_mem
      have e1 : (p :: x' :: xs').getLastD 0 = (x' :: xs').getLastD 0 := by
        simp [List.getLastD_cons]
      rw [e1]
      refine ⟨nd', ?_, hl0, hlast, hnext, ?_, hc2⟩
      · simp only [List.length_cons, Nat.add_sub_cancel] at hwalk ⊢
        simp only [split_walk, load_ok hx hnd]
        exact hwalk
      · refine (isChain_cons_iff _ p p (x' :: xs')).2 ⟨rfl, hx, nd, ?_, hc1⟩
        rw [store_other h _ p _ (fun e => hne e.symm), hnd]

/-- The function `merge_sort` on a chain of `size` nodes returns the chain of the
list-level merge sort, touching no other node and no value. -/
theorem merge_sort_spec (key : Nat → List Nat) :
    ∀ (fuel : Nat) (ns : List Nat) (h : Heap) (head : Nat) (size : Int),
      isChain h head ns = true → size = (ns.length : Int) →
      (∀ a ∈ ns, ∃ nd, h a = some nd ∧ nd.value = some (key a)) → ns.length < fuel →
      ∃ h', merge_sort fuel h head size = .ok (h', (listSort key ns).headD 0) ∧
        isChain h' ((listSort key ns).headD 0) (listSort key ns) = true ∧
        (∀ a, a ∉ ns → h' a = h a) ∧ sameValues h h' := by
  intro fuel
  induction fuel with
  | zero => intro ns h head size _ _ _ hf; omega
  | succ f ih =>
    intro ns h head size hc hsize hval hf
    by_cases hsmall : ns.length ≤ 1
    · refine ⟨h, ?_, ?_, fun _ _ => rfl, sameValues_refl h⟩
      · have : size ≤ 1 := by omega
        simp only [merge_sort, this, if_true, listSort_small key ns hsmall, ← isChain_head hc]
      · rw [listSort_small key ns hsmall, ← isChain_head hc]; exact hc
    · have hbig : ¬ size ≤ 1 := by omega
      have hhalf : size >>> (1 : Nat) = ((ns.length / 2 : Nat) : Int) := by
        rw [Int.shiftRight_eq_div_pow, hsize]; norm_num
      set k := ns.length / 2 with hk
      have hk1 : 1 ≤ k := by omega
      have hk2 : k < ns.length := by omega
      have hsplit : ns.take k ++ ns.drop k = ns := List.take_append_drop k ns
      have hlt : (ns.take k).length = k := by simp only [List.length_take]; omega
      have hld : (ns.drop k).length = ns.length - k := by simp only [List.length_drop]
      have hnodup := isChain_nodup hc
      rw [← hsplit] at hc hnodup
      obtain ⟨nd, hwalk, hl0, hlast, hnext, hc1, hc2⟩ :=
        split_spec (ns.take k) (ns.drop k) h head
          (by intro e; rw [e] at hlt; simp at hlt; omega) hc
      rw [hlt] at hwalk
      set lt := (ns.take k).getLastD 0 with hltdef
      set h1 := store h lt { nd with next := 0 } with hh1
      have hsv1 : sameValues h h1 := sameValues_store hlast
      have hval1 : ∀ a ∈ ns, ∃ nd, h1 a = some nd ∧ nd.value = some (key a) := by
        intro a ha
        obtain ⟨nda, hnda, hv⟩ := hval a ha
        by_cases e : a = lt
        · subst e
          rw [hlast] at hnda; cases hnda
          exact ⟨_, store_same h _ _, hv⟩
        · exact ⟨nda, by rw [hh1, store_other h lt a _ e, hnda], hv⟩
      have hdisj : ∀ a ∈ ns.take k, a ∉ ns.drop k := fun a ha hb =>
        (List.nodup_append.1 hnodup).2.2 ha hb
      -- the left half
      obtain ⟨h2, hrun2, hch2, hfr2, hsv2⟩ :=
        ih (ns.take k) h1 head (k : Int) hc1 (by rw [hlt])
          (fun a ha => hval1 a (List.mem_of_mem_take ha)) (by omega)
      have hval2 : ∀ a ∈ ns, ∃ nd, h2 a = some nd ∧ nd.value = some (key a) := by
        intro a ha
        obtain ⟨nda, hnda, hv⟩ := hval1 a ha
        have := hsv2 a
        rw [hnda] at this
        cases h2a : h2 a with
        | none => rw [h2a] at this; simp at this
        | some nd2 =>
          rw [h2a] at this
          simp only [Option.map_some', Option.some.injEq] at this
          exact ⟨nd2, rfl, this.trans hv⟩
      -- the right half
      have hc2' : isChain h2 ((ns.drop k).headD 0) (ns.drop k) = true :=
        isChain_frame hc2 (fun a ha => hfr2 a (fun e => hdisj a e ha))
      obtain ⟨h3, hrun3, hch3, hfr3, hsv3⟩ :=
        ih (ns.drop k) h2 ((ns.drop k).headD 0) ((ns.length - k : Nat) : Int) hc2'
          (by rw [hld])
          (fun a ha => hval2 a (List.mem_of_mem_drop ha)) (by omega)
      have hval3 : ∀ a ∈ ns, ∃ nd, h3 a = some nd ∧ nd.value = some (key a) := by
        intro a ha
        obtain ⟨nda, hnda, hv⟩ := hval2 a ha
        have := hsv3 a
        rw [hnda] at this
        cases h3a : h3 a with
        | none => rw [h3a] at this; simp at this
        | some nd3 =>
          rw [h3a] at this
          simp only [Option.map_some', Option.some.injEq] at this
          exact ⟨nd3, rfl, this.trans hv⟩
      have hpl := listSort_perm key (ns.take k)
      have hpr := listSort_perm key (ns.drop k)
      have hch2' : isChain h3 ((listSort key (ns.take k)).headD 0) (listSort key (ns.take k))
          = true :=
        isChain_frame hch2 (fun a ha => hfr3 a (fun e => hdisj a (hpl.mem_iff.1 ha) e))
      -- the merge
      obtain ⟨h4, hrun4, hch4, hfr4, hsv4⟩ :=
        merge_spec key f (listSort key (ns.take k)) (listSort key (ns.drop k)) h3 _ _
          hch2' hch3
          (fun a ha hb => hdisj a (hpl.mem_iff.1 ha) (hpr.mem_iff.1 hb))
          (fun a ha => hval3 a (by
            rcases ha with ha | ha
            · exact List.mem_of_mem_take (hpl.mem_iff.1 ha)
            · exact List.mem_of_mem_drop (hpr.mem_iff.1 ha)))
          (Or.inl (by
            intro e
            have := hpl.length_eq
            rw [e, hlt] at this
            simp at this; omega))
          (by rw [hpl.length_eq, hpr.length_eq, hlt, hld]; omega)
      have hsub : size - (k : Int) = ((ns.length - k : Nat) : Int) := by omega
      rw [listSort_big key ns hsmall]
      refine ⟨h4, ?_, hch4, ?_, ?_⟩
      · simp only [merge_sort, hbig, if_false, hhalf]
        have e : ((k : Int) - 1).toNat = k - 1 := by omega
        rw [e, hwalk]
        simp only [load_ok hl0 hlast, hnext, hsub]
        rw [← hh1, hrun2]
        simp only []
        rw [hrun3]
        simp only []
        rw [hrun4]
      · intro a ha
        have ha1 : a ∉ ns.take k := fun e => ha (List.mem_of_mem_take e)
        have ha2 : a ∉ ns.drop k := fun e => ha (List.mem_of_mem_drop e)
        rw [hfr4 a (fun e => ha1 (hpl.mem_iff.1 e)) (fun e => ha2 (hpr.mem_iff.1 e)),
          hfr3 a ha2, hfr2 a ha1, hh1]
        refine store_other h lt a _ ?_
        intro e
        apply ha1
        rw [e, hltdef]
        exact getLastD_mem (by intro e; rw [e] at hlt; simp at hlt; omega) 0
      · exact sameValues_trans (sameValues_trans (sameValues_trans hsv1 hsv2) hsv3) hsv4

/-- The walk of `q_sort` to the end of a non-empty chain finds its last node. -/
theorem find_tail_spec (ns : List Nat) :
    ∀ (fuel : Nat) (h : Heap) (p : Nat), ns ≠ [] → isChain h p ns = true →
      ns.length ≤ fuel → find_tail fuel h p = .ok (ns.getLastD 0) := by
  induction ns with
  | nil => intro _ _ _ hne; exact absurd rfl hne
  | cons x xs ih =>
    intro fuel h p _ hc hf
    obtain ⟨rfl, hx, nd, hnd, hrest⟩ := (isChain_cons_iff h p x xs).1 hc
    obtain ⟨f, rfl⟩ : ∃ f, fuel = f + 1 := ⟨fuel - 1, by simp at hf; omega⟩
    cases xs with
    | nil =>
      rw [isChain_nil_iff] at hrest
      simp [find_tail, load_ok hx hnd, hrest]
    | cons y ys =>
      have hy := (isChain_cons_iff h nd.next y ys).1 hrest
      have hne : nd.next ≠ 0 := by rw [hy.1]; exact hy.2.1
      have := ih f h nd.next (by simp) hrest (by simp at hf ⊢; omega)
      simp only [find_tail, load_ok hx hnd, ne_eq, hne, not_false_eq_true, if_true, this]
      simp [List.getLastD_cons]

theorem hasValue_iff {h : Heap} {a : Nat} :
    hasValue h a = true ↔ ∃ nd, h a = some nd ∧ nd.value = some (bufOf h a) := by
  unfold hasValue bufOf
  cases ha : h a with
  | none => simp
  | some nd =>
    cases hv : nd.value <;> simp [hv]

/-- What `q_sort` does to a well-formed queue: the chain becomes the list-level
merge sort of the node sequence, ordered by the stored buffers. -/
theorem q_sort_spec (fuel : Nat) (h : Heap) (q : queue_t) (ns : List Nat)
    (hwf : wf h q ns) (hf : ns.length < fuel) :
    ∃ h', q_sort fuel h (some q) =
        .ok (h', some { head := (listSort (bufOf h) ns).headD 0,
                        tail := (listSort (bufOf h) ns).getLastD 0, size := q.size }) ∧
      isChain h' ((listSort (bufOf h) ns).headD 0) (listSort (bufOf h) ns) = true ∧
      (∀ a, a ∉ ns → h' a = h a) ∧ sameValues h h' := by
  obtain ⟨hc, hsize, htail, hval⟩ := hwf
  by_cases hsmall : ns.length ≤ 1
  · refine ⟨h, ?_, ?_, fun _ _ => rfl, sameValues_refl h⟩
    · have : q.size ≤ 1 := by omega
      rw [listSort_small _ ns hsmall, ← isChain_head hc, ← htail]
      simp [q_sort, q_size, this]
    · rw [listSort_small _ ns hsmall, ← isChain_head hc]; exact hc
  · obtain ⟨h', hrun, hch, hfr, hsv⟩ :=
      merge_sort_spec (bufOf h) fuel ns h q.head q.size hc hsize
        (fun a ha => hasValue_iff.1 (hval a ha)) hf
    have hne : listSort (bufOf h) ns ≠ [] := by
      intro e
      have := (listSort_perm (bufOf h) ns).length_eq
      rw [e] at this
      simp at this; omega
    have hft := find_tail_spec _ fuel h' _ hne hch
      (by rw [(listSort_perm (bufOf h) ns).length_eq]; omega)
    refine ⟨h', ?_, hch, hfr, hsv⟩
    have h0 : q.head ≠ 0 := by
      intro e
      rw [e] at hc
      rw [isChain_zero hc] at hsmall
      simp at hsmall
    have h1 : ¬ q.size ≤ 1 := by omega
    simp only [q_sort, q_size, h0, h1, or_self, if_false, hrun, hft]

/-! ## Texts and buffers -/

theorem cstr_nil : cstr [] = [] := rfl

theorem cstr_cons_zero (xs : List Nat) : cstr (0 :: xs) = [] := by
  simp [cstr, List.takeWhile]

theorem cstr_cons_pos {x : Nat} (hx : x ≠ 0) (xs : List Nat) : cstr (x :: xs) = x :: cstr xs := by
  simp [cstr, List.takeWhile, hx]

theorem cstr_ne_zero (s : List Nat) : ∀ b ∈ cstr s, b ≠ 0 := by
  intro b hb
  have := List.mem_takeWhile_imp hb
  simpa using this

/-- A text followed by a NUL byte reads back as the text. -/
theorem cstr_append_zero (t rest : List Nat) (ht : ∀ b ∈ t, b ≠ 0) :
    cstr (t ++ 0 :: rest) = t := by
  induction t with
  | nil => exact cstr_cons_zero rest
  | cons x xs ih =>
    rw [List.cons_append, cstr_cons_pos (ht x (List.mem_cons_self _ _)),
      ih (fun b hb => ht b (List.mem_cons_of_mem _ hb))]

/-- Below `strlen`, a buffer and its text hold the same bytes. -/
theorem getD_cstr (s : List Nat) (i : Nat) (hi : i < strlen s) :
    s.getD i 0 = (cstr s).getD i 0 := by
  induction s generalizing i with
  | nil => simp [strlen, cstr_nil] at hi
  | cons x xs ih =>
    by_cases hx : x = 0
    · subst hx; simp [strlen, cstr_cons_zero] at hi
    · rw [cstr_cons_pos hx]
      cases i with
      | zero => simp
      | succ j =>
        simp only [List.getD_cons_succ]
        apply ih
        simp only [strlen, cstr_cons_pos hx, List.length_cons] at hi
        simp only [strlen]; omega

/-- The first `n` bytes after `strncpy(dst, src, n)`, for `n` within the text. -/
theorem readMem_strncpy (dst : Mem) (src : List Nat) (n k : Nat) (hk : k ≤ n)
    (hn : k ≤ strlen src) :
    readMem (strncpy dst src n) k = (cstr src).take k := by
  apply List.ext_getElem
  · simp [readMem, strlen] at *; omega
  · intro i h1 h2
    simp only [readMem, List.length_map, List.length_range] at h1
    simp only [readMem, List.getElem_map, List.getElem_range, strncpy]
    rw [if_pos (by omega), if_pos (by omega), getD_cstr src i (by omega)]
    rw [List.getElem_take]
    rw [List.getD_eq_getElem?_getD, List.getElem?_eq_getElem (by simp only [strlen] at hn; omega)]
    rfl

theorem readMem_succ (m : Mem) (n : Nat) : readMem m (n + 1) = readMem m n ++ [m n] := by
  simp [readMem, List.range_succ]

theorem readMem_congr (m m' : Mem) (n : Nat) (h : ∀ i, i < n → m i = m' i) :
    readMem m n = readMem m' n := by
  simp only [readMem]
  apply List.map_congr_left
  intro i hi
  exact h i (List.mem_range.1 hi)

/-- The buffer built by the insert functions is the text of `s` and a NUL. -/
theorem copy_value_eq (fresh : Mem) (s : List Nat) : copy_value fresh s = cstr s ++ [0] := by
  simp only [copy_value]
  rw [readMem_succ]
  congr 1
  · rw [readMem_congr _ (strncpy fresh s (strlen s)) _ (fun i hi => by simp [poke]; omega)]
    rw [readMem_strncpy fresh s _ _ (le_refl _) (le_refl _)]
    exact List.take_of_length_le (le_refl _)
  · simp [poke]

theorem cstr_copy_value (fresh : Mem) (s : List Nat) : cstr (copy_value fresh s) = cstr s := by
  rw [copy_value_eq]
  exact cstr_append_zero _ _ (cstr_ne_zero s)

/-- The function `strcmp` returns `0` exactly on buffers with the same text. -/
theorem strcmp_eq_zero_iff (a b : List Nat) : strcmp a b = 0 ↔ cstr a = cstr b := by
  induction a generalizing b with
  | nil =>
    cases b with
    | nil => simp [strcmp]
    | cons y ys =>
      by_cases hy : y = 0
      · subst hy; simp [strcmp, cstr_cons_zero, cstr_nil]
      · simp [strcmp, cstr_cons_pos hy, cstr_nil, hy]
  | cons x xs ih =>
    cases b with
    | nil =>
      by_cases hx : x = 0
      · subst hx; simp [strcmp, cstr_cons_zero, cstr_nil]
      · simp [strcmp, cstr_cons_pos hx, cstr_nil, hx]
    | cons y ys =>
      simp only [strcmp]
      by_cases hxy : x = y
      · subst hxy
        by_cases hx : x = 0
        · subst hx; simp [cstr_cons_zero]
        · simp [hx, cstr_cons_pos hx, ih ys]
      · simp only [ne_eq, hxy, not_false_eq_true, if_true]
        constructor
        · intro h; omega
        · intro h
          exfalso
          by_cases hx : x = 0
          · subst hx
            have hy : y ≠ 0 := fun e => hxy e.symm
            rw [cstr_cons_zero, cstr_cons_pos hy] at h
            cases h
          · by_cases hy : y = 0
            · subst hy
              rw [cstr_cons_zero, cstr_cons_pos hx] at h
              cases h
            · rw [cstr_cons_pos hx, cstr_cons_pos hy] at h
              exact hxy (List.cons.inj h).1

theorem size_pred_pos (c : Nat) (h1 : 1 ≤ c) (h2 : c ≤ SIZE_MAX) : size_pred c = c - 1 := by
  simp only [size_pred, SIZE_MAX] at *
  omega

theorem size_pred_zero : size_pred 0 = SIZE_MAX := by
  simp [size_pred, SIZE_MAX]

/-- The destination after the copy-out of `q_remove_head`, for a capacity of at
least one: the text cut to `c - 1` bytes and then NUL bytes up to the capacity. -/
theorem readMem_copy_out (m : Mem) (buf : List Nat) (c : Nat) (hc : 1 ≤ c) :
    readMem (poke (strncpy m buf (c - 1)) (c - 1) 0) c =
      (cstr buf).take (c - 1) ++ List.replicate (c - min (strlen buf) (c - 1)) 0 := by
  apply List.ext_getElem
  · simp [readMem, strlen]; omega
  · intro i h1 h2
    simp only [readMem, List.length_map, List.length_range] at h1
    simp only [readMem, List.getElem_map, List.getElem_range, strncpy, poke]
    by_cases hi : i < min (strlen buf) (c - 1)
    · have hi1 : i < strlen buf := by omega
      have hi2 : i < c - 1 := by omega
      rw [if_neg (by omega), if_pos hi2, if_pos hi1, getD_cstr buf i hi1]
      rw [List.getElem_append_left (by simp [strlen] at *; omega), List.getElem_take]
      rw [List.getD_eq_getElem?_getD, List.getElem?_eq_getElem (by simp only [strlen] at hi1; omega)]
      rfl
    · rw [List.getElem_append_right (by simp [strlen] at *; omega)]
      simp only [List.getElem_replicate]
      by_cases hlast : i = c - 1
      · rw [if_pos hlast]
      · rw [if_neg hlast, if_pos (by omega), if_neg (by omega)]

theorem lexLe_nil (b : List Nat) : lexLe [] b := by
  cases b with
  | nil => exact Or.inr rfl
  | cons y ys => exact Or.inl List.Lex.nil

theorem lexLe_cons_nil (x : Nat) (xs : List Nat) : ¬ lexLe (x :: xs) [] := by
  rintro (h | h)
  · cases h
  · cases h

theorem lexLe_cons_cons (x y : Nat) (xs ys : List Nat) :
    lexLe (x :: xs) (y :: ys) ↔ x < y ∨ (x = y ∧ lexLe xs ys) := by
  constructor
  · rintro (h | h)
    · cases h with
      | cons h => exact Or.inr ⟨rfl, Or.inl h⟩
      | rel h => exact Or.inl h
    · cases h
      exact Or.inr ⟨rfl, Or.inr rfl⟩
  · rintro (h | ⟨rfl, h | h⟩)
    · exact Or.inl (List.Lex.rel h)
    · exact Or.inl (List.Lex.cons h)
    · exact Or.inr (by rw [h])

/-- The function `strcmp` decides the lexicographic order of the two texts. -/
theorem strcmp_le_iff_lexLe (a b : List Nat) : strcmp a b ≤ 0 ↔ lexLe (cstr a) (cstr b) := by
  induction a generalizing b with
  | nil => simp [strcmp_nil_le, cstr_nil, lexLe_nil]
  | cons x xs ih =>
    by_cases hx : x = 0
    · subst hx
      rw [cstr_cons_zero]
      simp only [lexLe_nil, iff_true]
      cases b with
      | nil => simp [strcmp]
      | cons y ys =>
        rw [strcmp_cons_cons_le]
        rcases Nat.eq_zero_or_pos y with hy | hy
        · exact Or.inr ⟨hy.symm, Or.inl rfl⟩
        · exact Or.inl hy
    · rw [cstr_cons_pos hx]
      cases b with
      | nil =>
        rw [strcmp_cons_nil_le, cstr_nil]
        simp [hx, lexLe_cons_nil]
      | cons y ys =>
        rw [strcmp_cons_cons_le]
        by_cases hy : y = 0
        · subst hy
          rw [cstr_cons_zero]
          simp only [lexLe_cons_nil, iff_false]
          omega
        · rw [cstr_cons_pos hy, lexLe_cons_cons, ih ys]
          simp [hx]

theorem headD_reverse (ns : List Nat) (d : Nat) : ns.reverse.headD d = ns.getLastD d := by
  simp [List.getLastD_eq_getLast?, List.head?_reverse]

theorem getLastD_reverse (ns : List Nat) (d : Nat) : ns.reverse.getLastD d = ns.headD d := by
  simp [List.getLastD_eq_getLast?, List.getLast?_reverse]

/-! ## Sorting -/

/-- C1: after `q_sort` on a well-formed queue (with enough fuel for the loops) the
queue's chain runs through nodes whose values ascend: every value buffer compares
`strcmp <= 0` to its successor, that is, every text is lexicographically
less-than-or-equal to the next one. -/
theorem q_sort_ascending (fuel : Nat) (h : Heap) (q : queue_t) (ns : List Nat)
    (hwf : wf h q ns) (hf : ns.length < fuel) :
    ∃ h' q' ms, q_sort fuel h (some q) = .ok (h', some q') ∧
      isChain h' q'.head ms = true ∧
      List.Chain' (fun a b => strcmp a b ≤ 0) (ms.map (bufOf h')) ∧
      List.Chain' lexLe (ms.map (textOf h')) := by
  obtain ⟨h', hrun, hch, -, hsv⟩ := q_sort_spec fuel h q ns hwf hf
  have hsorted := listSort_sorted (bufOf h) ns
  have hb : bufOf h' = bufOf h := funext (sameValues_bufOf hsv)
  have hp : List.Pairwise (fun a b => strcmp a b ≤ 0) ((listSort (bufOf h) ns).map (bufOf h')) := by
    rw [List.pairwise_map, hb]
    refine hsorted.imp ?_
    intro a b hab
    simpa [leKey, leBuf] using hab
  refine ⟨h', _, listSort (bufOf h) ns, hrun, hch, hp.chain', ?_⟩
  have hp2 : List.Pairwise lexLe ((listSort (bufOf h) ns).map (textOf h')) := by
    rw [List.pairwise_map]
    rw [List.pairwise_map] at hp
    refine hp.imp ?_
    intro a b hab
    exact (strcmp_le_iff_lexLe _ _).1 hab
  exact hp2.chain'

/-- C1, on the example queue banana, apple, cherry, apple. -/
theorem q_sort_ascending_witness :
    wf fruit.1 fruit.2 [1, 2, 3, 4] ∧
    ∃ h' q' ms, q_sort 5 fruit.1 (some fruit.2) = .ok (h', some q') ∧
      isChain h' q'.head ms = true ∧
      List.Chain' (fun a b => strcmp a b ≤ 0) (ms.map (bufOf h')) ∧
      List.Chain' lexLe (ms.map (textOf h')) :=
  ⟨by decide, q_sort_ascending 5 fruit.1 fruit.2 [1, 2, 3, 4] (by decide) (by decide)⟩

/-- C2: `q_sort` on a well-formed queue creates and destroys no node: the chain
afterwards is a permutation of the node sequence before, each node once, every
address holds a node with the same value buffer exactly as before, nodes outside
the queue are untouched, and the count is unchanged. -/
theorem q_sort_same_nodes (fuel : Nat) (h : Heap) (q : queue_t) (ns : List Nat)
    (hwf : wf h q ns) (hf : ns.length < fuel) :
    ∃ h' q' ms, q_sort fuel h (some q) = .ok (h', some q') ∧
      isChain h' q'.head ms = true ∧ ms.Perm ns ∧ ms.Nodup ∧
      (∀ a, (h' a).map (fun nd => nd.value) = (h a).map (fun nd => nd.value)) ∧
      (∀ a, a ∉ ns → h' a = h a) ∧ q'.size = q.size ∧ q'.size = (ms.length : Int) := by
  obtain ⟨h', hrun, hch, hfr, hsv⟩ := q_sort_spec fuel h q ns hwf hf
  have hperm := listSort_perm (bufOf h) ns
  refine ⟨h', _, listSort (bufOf h) ns, hrun, hch, hperm, isChain_nodup hch, hsv, hfr, rfl, ?_⟩
  simp only [hperm.length_eq]
  exact hwf.2.1

/-- C2, on the example queue. -/
theorem q_sort_same_nodes_witness :
    wf fruit.1 fruit.2 [1, 2, 3, 4] ∧
    ∃ h' q' ms, q_sort 5 fruit.1 (some fruit.2) = .ok (h', some q') ∧
      isChain h' q'.head ms = true ∧ ms.Perm [1, 2, 3, 4] ∧ ms.Nodup ∧
      (∀ a, (h' a).map (fun nd => nd.value) = (fruit.1 a).map (fun nd => nd.value)) ∧
      (∀ a, a ∉ [1, 2, 3, 4] → h' a = fruit.1 a) ∧ q'.size = fruit.2.size ∧
      q'.size = (ms.length : Int) :=
  ⟨by decide, q_sort_same_nodes 5 fruit.1 fruit.2 [1, 2, 3, 4] (by decide) (by decide)⟩

/-- C3: `q_sort` is stable: two nodes with equal values (the same text, so that
`strcmp` returns 0) that appear in the order `a`, `b` before the sort appear in
that order after it.  On the queue built from "banana", "apple", "cherry", "apple"
the sort yields apple, apple, banana, cherry, with the node of the first apple
(address 2) ahead of the node of the second (address 4). -/
theorem q_sort_stable (fuel : Nat) (h : Heap) (q : queue_t) (ns : List Nat)
    (hwf : wf h q ns) (hf : ns.length < fuel) :
    (∃ h' q' ms, q_sort fuel h (some q) = .ok (h', some q') ∧
      isChain h' q'.head ms = true ∧
      ∀ a b, [a, b].Sublist ns → textOf h a = textOf h b → [a, b].Sublist ms) ∧
    (∃ h' q', q_sort 5 fruit.1 (some fruit.2) = .ok (h', some q') ∧
      chainFrom 5 h' q'.head = [2, 4, 1, 3] ∧
      [2, 4, 1, 3].map (textOf h') = [cstr apple, cstr apple, cstr banana, cstr cherry]) := by
  obtain ⟨h', hrun, hch, -, -⟩ := q_sort_spec fuel h q ns hwf hf
  refine ⟨⟨h', _, listSort (bufOf h) ns, hrun, hch, ?_⟩, ⟨_, _, rfl, by decide, by decide⟩⟩
  intro a b hs heq
  refine listSort_stable (bufOf h) ns a b ?_ hs
  have : strcmp (bufOf h a) (bufOf h b) = 0 := (strcmp_eq_zero_iff _ _).2 heq
  simp [leKey, leBuf, this]

/-- C3, on the example queue: the two apple nodes keep their order. -/
theorem q_sort_stable_witness :
    wf fruit.1 fruit.2 [1, 2, 3, 4] ∧ textOf fruit.1 2 = textOf fruit.1 4 ∧
    ∃ h' q' ms, q_sort 5 fruit.1 (some fruit.2) = .ok (h', some q') ∧
      isChain h' q'.head ms = true ∧ [2, 4].Sublist ms := by
  refine ⟨by decide, by decide, ?_⟩
  obtain ⟨⟨h', q', ms, hrun, hch, hst⟩, -⟩ :=
    q_sort_stable 5 fruit.1 fruit.2 [1, 2, 3, 4] (by decide) (by decide)
  exact ⟨h', q', ms, hrun, hch, hst 2 4 (by decide) (by decide)⟩

/-! ## Reversal -/

/-- C4: `q_reverse` on a well-formed non-empty queue with node sequence `ns`
yields the node sequence reversed, the new head being the old tail, the new tail
the old head, with the count, the values and all other nodes unchanged; on an
absent queue and on a queue whose head is NULL it changes nothing. -/
theorem q_reverse_spec (fuel : Nat) (h : Heap) (q : queue_t) (ns : List Nat)
    (hwf : wf h q ns) (hne : ns ≠ []) (hf : ns.length < fuel) :
    (∃ h' q', q_reverse fuel h (some q) = .ok (h', some q') ∧
      isChain h' q'.head ns.reverse = true ∧
      q'.head = q.tail ∧ q'.tail = q.head ∧ q'.size = q.size ∧
      (∀ a, (h' a).map (fun nd => nd.value) = (h a).map (fun nd => nd.value)) ∧
      (∀ a, a ∉ ns → h' a = h a)) ∧
    (∀ (f : Nat) (g : Heap), q_reverse f g none = .ok (g, none)) ∧
    (∀ (f : Nat) (g : Heap) (e : queue_t), e.head = 0 →
      q_reverse f g (some e) = .ok (g, some e)) := by
  obtain ⟨hc, hsize, htail, -⟩ := hwf
  refine ⟨?_, fun _ _ => rfl, fun f g e he => by simp [q_reverse, he]⟩
  obtain ⟨h', hrun, hch, hfr, hsv⟩ :=
    reverse_loop_spec ns fuel h 0 q.head [] hc rfl (fun _ _ => by simp) hf
  simp only [List.append_nil] at hrun hch
  have h0 : q.head ≠ 0 := by
    intro e
    rw [e] at hc
    exact hne (isChain_zero hc)
  refine ⟨h', { head := ns.reverse.headD 0, tail := q.head, size := q.size }, ?_, hch, ?_, rfl,
    rfl, hsv, hfr⟩
  · simp only [q_reverse, h0, if_false, hrun]
  · simp only [headD_reverse, htail]

/-- C4, on the example queue. -/
theorem q_reverse_spec_witness :
    wf fruit.1 fruit.2 [1, 2, 3, 4] ∧
    ∃ h' q', q_reverse 5 fruit.1 (some fruit.2) = .ok (h', some q') ∧
      isChain h' q'.head [4, 3, 2, 1] = true ∧ q'.head = 4 ∧ q'.tail = 1 ∧ q'.size = 4 := by
  refine ⟨by decide, ?_⟩
  obtain ⟨⟨h', q', hrun, hch, h1, h2, h3, -, -⟩, -, -⟩ :=
    q_reverse_spec 5 fruit.1 fruit.2 [1, 2, 3, 4] (by decide) (by decide) (by decide)
  exact ⟨h', q', hrun, hch, h1, h2, h3⟩

/-! ## Insertion and removal -/

theorem textOf_store_other (h : Heap) (p a : Nat) (nd : list_ele_t) (hne : a ≠ p) :
    textOf (store h p nd) a = textOf h a := by
  simp [textOf, bufOf, store, hne]

theorem not_mem_of_free {h : Heap} {p a : Nat} {ns : List Nat} (hc : isChain h p ns = true)
    (hfree : h a = none) : a ∉ ns := by
  intro ha
  obtain ⟨nd, hnd⟩ := isChain_live hc a ha
  rw [hfree] at hnd
  cases hnd

/-- Linking `x` behind the last node of a chain appends the chain from `x`. -/
theorem isChain_append (h h2 : Heap) (x : Nat) (xs : List Nat) (ns : List Nat) :
    ∀ (p : Nat), isChain h p ns = true → ns ≠ [] →
      (∀ a ∈ ns, a ≠ ns.getLastD 0 → h2 a = h a) →
      (∃ nd, h (ns.getLastD 0) = some nd ∧ h2 (ns.getLastD 0) = some { nd with next := x }) →
      isChain h2 x xs = true → isChain h2 p (ns ++ xs) = true := by
  induction ns with
  | nil => intro _ _ hne; exact absurd rfl hne
  | cons n ns ih =>
    intro p hc _ hfr hlast hx
    have hnodup := isChain_nodup hc
    obtain ⟨rfl, hn, nd, hnd, hrest⟩ := (isChain_cons_iff h p n ns).1 hc
    cases ns with
    | nil =>
      obtain ⟨nd', h1, h2'⟩ := hlast
      simp only [List.getLastD_cons, List.getLastD_nil] at h1 h2'
      exact (isChain_cons_iff h2 p p xs).2 ⟨rfl, hn, _, h2', hx⟩
    | cons n' ns' =>
      have e1 : (p :: n' :: ns').getLastD 0 = (n' :: ns').getLastD 0 := by
        simp [List.getLastD_cons]
      rw [e1] at hfr hlast
      have hmem : (n' :: ns').getLastD 0 ∈ n' :: ns' := getLastD_mem (by simp) 0
      have hpne : p ≠ (n' :: ns').getLastD 0 := by
        intro e
        exact (List.nodup_cons.1 hnodup).1 (e ▸ hmem)
      refine (isChain_cons_iff h2 p p _).2 ⟨rfl, hn, nd, ?_, ?_⟩
      · rw [hfr p (List.mem_cons_self _ _) hpne, hnd]
      · exact ih nd.next hrest (by simp)
          (fun a ha hne => hfr a (List.mem_cons_of_mem _ ha) hne) hlast hx

/-! ## The `int` count -/

/-- Inside the range of `int` nothing wraps. -/
theorem int_wrap_of_range (x : Int) (h1 : INT_MIN ≤ x) (h2 : x ≤ INT_MAX) : int_wrap x = x := by
  simp only [int_wrap, INT_MIN, INT_MAX] at *
  omega

/-- A wrapped value is in the range of `int`. -/
theorem int_wrap_range (x : Int) : INT_MIN ≤ int_wrap x ∧ int_wrap x ≤ INT_MAX := by
  simp only [int_wrap, INT_MIN, INT_MAX]
  omega

/-- One more than `INT_MAX` is `INT_MIN`. -/
theorem int_wrap_int_max : int_wrap (INT_MAX + 1) = INT_MIN := by
  decide

/-- The count after `q->size++` on a queue of fewer than `INT_MAX` elements. -/
theorem int_wrap_succ (n : Nat) (hn : (n : Int) < INT_MAX) : int_wrap ((n : Int) + 1) = n + 1 := by
  apply int_wrap_of_range
  · simp only [INT_MIN]; omega
  · omega

/-- The count after `q->size--` on a queue of `n + 1` elements. -/
theorem int_wrap_pred (n : Nat) (hn : ((n + 1 : Nat) : Int) ≤ INT_MAX) :
    int_wrap (((n + 1 : Nat) : Int) - 1) = n := by
  rw [int_wrap_of_range]
  · push_cast; ring
  · simp only [INT_MIN]; push_cast; omega
  · omega

/-! ## A queue of `INT_MAX` elements -/

theorem ramp_chain (n : Nat) :
    ∀ (m k : Nat), k ≠ 0 → k + m = n + 1 →
      isChain (ramp n) (if m = 0 then 0 else k) (List.range' k m) = true := by
  intro m
  induction m with
  | zero => intro k _ _; rfl
  | succ m ih =>
    intro k hk hkm
    have hnd : ramp n k = some { value := some [0], next := if k = n then 0 else k + 1 } := by
      have : 1 ≤ k ∧ k ≤ n := by omega
      simp only [ramp, this, and_self, if_true]
    rw [List.range'_succ, if_neg (Nat.succ_ne_zero m)]
    refine (isChain_cons_iff _ _ _ _).2 ⟨rfl, hk, _, hnd, ?_⟩
    have := ih (k + 1) (by omega) (by omega)
    by_cases hm : m = 0
    · subst hm
      have hkn : k = n := by omega
      simp only [hkn, if_true]
      rfl
    · have hkn : k ≠ n := by omega
      simp only [hkn, if_false]
      simpa only [hm, if_false] using this

theorem getLastD_append_singleton (ns : List Nat) (x d : Nat) :
    (ns ++ [x]).getLastD d = x := by
  simp [List.getLastD_eq_getLast?]

theorem write_next_live (h : Heap) (p x : Nat) (nd : list_ele_t) (hnd : h p = some nd) :
    write_next h p x = store h p { nd with next := x } := by
  simp only [write_next, hnd]

theorem ramp_last (n : Nat) : (List.range' 1 n).getLastD 0 = n := by
  cases n with
  | zero => rfl
  | succ n =>
    rw [List.range'_concat, getLastD_append_singleton]
    omega

/-- The queue `ramp_queue n` on the heap `ramp n` is well-formed, with the nodes
`1, ..., n`. -/
theorem ramp_wf (n : Nat) : wf (ramp n) (ramp_queue n) (List.range' 1 n) := by
  refine ⟨?_, ?_, ?_, ?_⟩
  · exact ramp_chain n n 1 (by omega) (by omega)
  · simp [ramp_queue]
  · simp only [ramp_queue, ramp_last]
  · intro p hp
    have hp2 : 1 ≤ p ∧ p ≤ n := by
      have := List.mem_range'_1.1 hp
      omega
    simp only [hasValue, ramp, hp2, and_self, if_true, Option.isSome_some]

theorem ramp_free (n a : Nat) (ha : n < a) : ramp n a = none := by
  have : ¬ (1 ≤ a ∧ a ≤ n) := by omega
  simp only [ramp, this, if_false]

/-- C5 (amended): on a well-formed queue with node sequence `ns`, an insert-head
whose two allocations succeed (a fresh non-NULL node address, a buffer) returns
true; the node sequence becomes `newh :: ns`, the texts become the text of `s`
followed by the old texts, the stored buffer is the text of `s` and a NUL; the
new node is head and tail when the queue was empty, and the tail is unchanged
otherwise.  The count becomes `|ns| + 1` wrapped to the range of `int`: it is
`|ns| + 1` when the queue has fewer than `INT_MAX` elements. -/
theorem q_insert_head_spec (h : Heap) (q : queue_t) (ns : List Nat) (s : List Nat)
    (newh : Nat) (fresh : Mem) (hwf : wf h q ns) (hnew : newh ≠ 0) (hfree : h newh = none) :
    ∃ h' q', q_insert_head h (some q) s newh (some fresh) = (h', some q', true) ∧
      isChain h' q'.head (newh :: ns) = true ∧
      (newh :: ns).map (textOf h') = cstr s :: ns.map (textOf h) ∧
      q'.size = int_wrap ((ns.length : Int) + 1) ∧
      ((ns.length : Int) < INT_MAX → q'.size = (ns.length : Int) + 1) ∧
      bufOf h' newh = cstr s ++ [0] ∧
      (ns = [] → q'.head = newh ∧ q'.tail = newh) ∧
      (ns ≠ [] → q'.tail = q.tail) := by
  obtain ⟨hc, hsize, htail, -⟩ := hwf
  have hnot : newh ∉ ns := not_mem_of_free hc hfree
  have hne : ∀ a ∈ ns, a ≠ newh := fun a ha e => hnot (e ▸ ha)
  have hrun : q_insert_head h (some q) s newh (some fresh) =
      (store h newh { value := some (copy_value fresh s), next := q.head },
        some { head := newh, tail := if q.head = 0 then newh else q.tail,
               size := int_wrap (q.size + 1) },
        true) := by
    simp only [q_insert_head, hnew, if_false]
    by_cases h0 : q.head = 0 <;> simp [h0]
  refine ⟨_, _, hrun, ?_, ?_, ?_, ?_, ?_, ?_, ?_⟩
  · refine (isChain_cons_iff _ _ _ _).2 ⟨rfl, hnew, _, store_same h newh _, ?_⟩
    exact isChain_frame hc (fun a ha => store_other h newh a _ (hne a ha))
  · simp only [List.map_cons, List.cons.injEq]
    constructor
    · simp [textOf, bufOf, store, cstr_copy_value]
    · exact List.map_congr_left (fun a ha => textOf_store_other h newh a _ (hne a ha))
  · simp only [hsize]
  · intro hlt
    simp only [hsize]
    exact int_wrap_succ ns.length hlt
  · simp [bufOf, store, copy_value_eq]
  · intro e
    subst e
    have : q.head = 0 := by simpa [isChain] using hc
    simp [this]
  · intro e
    have : q.head ≠ 0 := by
      intro e0
      rw [e0] at hc
      exact e (isChain_zero hc)
    simp [this]

/-- C5, inserting "cherry" in front of the example queue at address 9. -/
theorem q_insert_head_spec_witness :
    wf fruit.1 fruit.2 [1, 2, 3, 4] ∧ fruit.1 9 = none ∧
    ∃ h' q', q_insert_head fruit.1 (some fruit.2) cherry 9 (some junk) = (h', some q', true) ∧
      isChain h' q'.head [9, 1, 2, 3, 4] = true ∧
      [9, 1, 2, 3, 4].map (textOf h') = cstr cherry :: [1, 2, 3, 4].map (textOf fruit.1) ∧
      q'.size = 5 ∧ q'.tail = 4 := by
  refine ⟨by decide, by decide, ?_⟩
  obtain ⟨h', q', hrun, hch, htx, -, hsz, -, -, htl⟩ :=
    q_insert_head_spec fruit.1 fruit.2 [1, 2, 3, 4] cherry 9 junk (by decide) (by decide)
      (by decide)
  exact ⟨h', q', hrun, hch, htx, hsz (by decide), htl (by decide)⟩

/-- C5 (refuted as stated): on the well-formed queue of the `INT_MAX` nodes
`1, ..., 2147483647` an insert-head with both allocations granted returns true,
and the count, which the claim puts at `k + 1 = 2147483648`, is
`-2147483648`. -/
theorem q_insert_head_at_int_max :
    wf (ramp 2147483647) (ramp_queue 2147483647) (List.range' 1 2147483647) ∧
    (List.range' 1 2147483647).length = 2147483647 ∧
    ramp 2147483647 2147483648 = none ∧
    ∃ h' q', q_insert_head (ramp 2147483647) (some (ramp_queue 2147483647)) cherry 2147483648
        (some junk) = (h', some q', true) ∧
      isChain h' q'.head (2147483648 :: List.range' 1 2147483647) = true ∧
      q'.size = -2147483648 := by
  refine ⟨ramp_wf _, List.length_range' _ _ _, ramp_free _ _ (by omega), _, _, rfl, ?_, ?_⟩
  · refine (isChain_cons_iff _ _ _ _).2 ⟨rfl, by omega, _, store_same _ _ _, ?_⟩
    have hc := (ramp_wf 2147483647).1
    exact isChain_frame hc (fun a ha => store_other _ _ a _ (by
      have := List.mem_range'_1.1 ha
      omega))
  · decide

/-- C6 (amended): on a well-formed queue with node sequence `ns`, an insert-tail
whose two allocations succeed returns true; the node sequence becomes
`ns ++ [newt]`, the texts become the old texts followed by the text of `s`, the
new node is the tail and its link is NULL; the new node is also the head when
the queue was empty, and the head is unchanged otherwise.  The count becomes
`|ns| + 1` wrapped to the range of `int`: it is `|ns| + 1` when the queue has
fewer than `INT_MAX` elements. -/
theorem q_insert_tail_spec (h : Heap) (q : queue_t) (ns : List Nat) (s : List Nat)
    (newt : Nat) (fresh : Mem) (hwf : wf h q ns) (hnew : newt ≠ 0) (hfree : h newt = none) :
    ∃ h' q', q_insert_tail h (some q) s newt (some fresh) = .ok (h', some q', true) ∧
      isChain h' q'.head (ns ++ [newt]) = true ∧
      (ns ++ [newt]).map (textOf h') = ns.map (textOf h) ++ [cstr s] ∧
      q'.size = int_wrap ((ns.length : Int) + 1) ∧
      ((ns.length : Int) < INT_MAX → q'.size = (ns.length : Int) + 1) ∧
      q'.tail = newt ∧ (∃ nd, h' newt = some nd ∧ nd.next = 0) ∧
      bufOf h' newt = cstr s ++ [0] ∧
      (ns = [] → q'.head = newt) ∧ (ns ≠ [] → q'.head = q.head) := by
  obtain ⟨hc, hsize, htail, -⟩ := hwf
  have hnot : newt ∉ ns := not_mem_of_free hc hfree
  have hne : ∀ a ∈ ns, a ≠ newt := fun a ha e => hnot (e ▸ ha)
  set nd0 : list_ele_t := { value := some (copy_value fresh s), next := 0 } with hnd0
  set h1 := store h newt nd0 with hh1
  by_cases hemp : ns = []
  · subst hemp
    have ht : q.tail = 0 := by simpa using htail
    refine ⟨h1, { q with head := newt, tail := newt, size := int_wrap (q.size + 1) },
      ?_, ?_, ?_, ?_, ?_, rfl,
      ⟨nd0, store_same h newt _, rfl⟩, ?_, fun _ => rfl, fun e => absurd rfl e⟩
    · simp [q_insert_tail, hnew, ht, hh1, hnd0]
    · exact (isChain_cons_iff _ _ _ _).2 ⟨rfl, hnew, nd0, store_same h newt _, rfl⟩
    · simp [textOf, bufOf, hh1, store, hnd0, cstr_copy_value]
    · simp only [hsize]
    · intro hlt
      simp only [hsize]
      exact int_wrap_succ _ hlt
    · simp [bufOf, hh1, store, hnd0, copy_value_eq]
  · have hlm : ns.getLastD 0 ∈ ns := getLastD_mem hemp 0
    have ht0 : q.tail ≠ 0 := by
      rw [htail]; exact isChain_ne_zero hc _ hlm
    obtain ⟨ndt, hndt⟩ := isChain_live hc _ hlm
    have htn : ns.getLastD 0 ≠ newt := hne _ hlm
    have h1t : h1 (ns.getLastD 0) = some ndt := by
      rw [hh1, store_other h newt _ _ htn, hndt]
    set h2 := store h1 (ns.getLastD 0) { ndt with next := newt } with hh2
    have h2new : h2 newt = some nd0 := by
      rw [hh2, store_other h1 _ newt _ (fun e => htn e.symm), hh1, store_same]
    have h2old : ∀ a ∈ ns, a ≠ ns.getLastD 0 → h2 a = h a := by
      intro a ha hal
      rw [hh2, store_other h1 _ a _ hal, hh1, store_other h newt a _ (hne a ha)]
    refine ⟨h2, { q with tail := newt, size := int_wrap (q.size + 1) }, ?_, ?_, ?_, ?_, ?_, rfl,
      ⟨nd0, h2new, rfl⟩, ?_, fun e => absurd e hemp, fun _ => rfl⟩
    · simp only [q_insert_tail, hnew, if_false, ht0]
      rw [htail, ← hnd0, ← hh1, write_next_live h1 _ newt ndt h1t]
    · refine isChain_append h h2 newt [newt] ns q.head hc hemp h2old
        ⟨ndt, hndt, by rw [hh2, store_same]⟩ ?_
      exact (isChain_cons_iff _ _ _ _).2 ⟨rfl, hnew, nd0, h2new, rfl⟩
    · simp only [List.map_append, List.map_cons, List.map_nil]
      congr 1
      · apply List.map_congr_left
        intro a ha
        by_cases hal : a = ns.getLastD 0
        · subst hal
          have h2l : h2 (ns.getLastD 0) = some { ndt with next := newt } := by
            rw [hh2, store_same]
          simp only [textOf, bufOf, h2l, hndt]
        · simp only [textOf, bufOf, h2old a ha hal]
      · simp [textOf, bufOf, h2new, hnd0, cstr_copy_value]
    · simp only [hsize]
    · intro hlt
      simp only [hsize]
      exact int_wrap_succ _ hlt
    · simp [bufOf, h2new, hnd0, copy_value_eq]

/-- C6, appending "cherry" to the example queue at address 9. -/
theorem q_insert_tail_spec_witness :
    wf fruit.1 fruit.2 [1, 2, 3, 4] ∧ fruit.1 9 = none ∧
    ∃ h' q', q_insert_tail fruit.1 (some fruit.2) cherry 9 (some junk) =
        .ok (h', some q', true) ∧
      isChain h' q'.head [1, 2, 3, 4, 9] = true ∧
      [1, 2, 3, 4, 9].map (textOf h') = [1, 2, 3, 4].map (textOf fruit.1) ++ [cstr cherry] ∧
      q'.size = 5 ∧ q'.tail = 9 ∧ q'.head = 1 := by
  refine ⟨by decide, by decide, ?_⟩
  obtain ⟨h', q', hrun, hch, htx, -, hsz, htl, -, -, -, hhd⟩ :=
    q_insert_tail_spec fruit.1 fruit.2 [1, 2, 3, 4] cherry 9 junk (by decide) (by decide)
      (by decide)
  exact ⟨h', q', hrun, hch, htx, hsz (by decide), htl, hhd (by decide)⟩

/-- C6 (refuted as stated): on the well-formed queue of the `INT_MAX` nodes
`1, ..., 2147483647` an insert-tail with both allocations granted returns true
and makes the new node the tail, and the count, which the claim puts at
`k + 1 = 2147483648`, is `-2147483648`. -/
theorem q_insert_tail_at_int_max :
    wf (ramp 2147483647) (ramp_queue 2147483647) (List.range' 1 2147483647) ∧
    (List.range' 1 2147483647).length = 2147483647 ∧
    ramp 2147483647 2147483648 = none ∧
    ∃ h' q', q_insert_tail (ramp 2147483647) (some (ramp_queue 2147483647)) cherry 2147483648
        (some junk) = .ok (h', some q', true) ∧
      q'.tail = 2147483648 ∧ q'.size = -2147483648 :=
  ⟨ramp_wf _, List.length_range' _ _ _, ramp_free _ _ (by omega), _, _, rfl, by decide,
    by decide⟩

theorem release_same (h : Heap) (p : Nat) : release h p p = none := by
  simp [release]

theorem release_other (h : Heap) (p a : Nat) (hne : a ≠ p) : release h p a = h a := by
  simp [release, hne]

/-- The result of `q_remove_head` with a destination of capacity at least one
byte, on a queue whose head node owns a value. -/
theorem q_remove_head_copy_ok (h : Heap) (q : queue_t) (nd : list_ele_t) (str : List Nat)
    (m : Mem) (c : Nat) (h0 : q.head ≠ 0) (hnd : h q.head = some nd)
    (hv : nd.value = some str) (h1 : 1 ≤ c) (h2 : c ≤ SIZE_MAX) :
    q_remove_head h (some q) (some m) c =
      .ok (release h q.head,
        some { q with head := nd.next, size := int_wrap (q.size - 1) },
        some (copy_out m str c), true) := by
  have hno : ¬ SIZE_MAX ≤ c - 1 := by omega
  simp only [q_remove_head, h0, if_false, load_ok h0 hnd, hv, size_pred_pos c h1 h2, hno]

/-- The result of `q_remove_head` on a queue whose head node is live, when the
destination is NULL or has a capacity of at least one byte. -/
theorem q_remove_head_ok (h : Heap) (q : queue_t) (nd : list_ele_t) (sp : Option Mem)
    (bufsize : Nat) (h0 : q.head ≠ 0) (hnd : h q.head = some nd)
    (hdst : sp = none ∨ (1 ≤ bufsize ∧ bufsize ≤ SIZE_MAX)) :
    ∃ sp', q_remove_head h (some q) sp bufsize =
      .ok (release h q.head,
        some { q with head := nd.next, size := int_wrap (q.size - 1) }, sp', true) := by
  cases hv : nd.value with
  | none =>
    exact ⟨sp, by simp only [q_remove_head, h0, if_false, load_ok h0 hnd, hv]⟩
  | some str =>
    cases sp with
    | none =>
      exact ⟨none, by simp only [q_remove_head, h0, if_false, load_ok h0 hnd, hv]⟩
    | some m =>
      have hc : 1 ≤ bufsize ∧ bufsize ≤ SIZE_MAX := by
        rcases hdst with hd | hd
        · cases hd
        · exact hd
      exact ⟨some (copy_out m str bufsize),
        q_remove_head_copy_ok h q nd str m bufsize h0 hnd hv hc.1 hc.2⟩

/-- With a destination and the capacity 0, `q_remove_head` on a queue whose
head node owns a value does not return: the copy of `SIZE_MAX` bytes runs off
the destination. -/
theorem q_remove_head_zero (h : Heap) (q : queue_t) (nd : list_ele_t) (str : List Nat)
    (m : Mem) (h0 : q.head ≠ 0) (hnd : h q.head = some nd) (hv : nd.value = some str) :
    q_remove_head h (some q) (some m) 0 = .error .overrun := by
  simp only [q_remove_head, h0, if_false, load_ok h0 hnd, hv, size_pred_zero, le_refl, if_true]

/-- What `q_remove_head` does to a well-formed queue with node sequence
`n :: rest` of at most `INT_MAX` elements, for a NULL destination or a capacity
of at least one byte: it returns true, the chain from the new head is `rest`,
the count is one less, the removed node is freed and no other node changes. -/
theorem q_remove_head_valid (h : Heap) (q : queue_t) (n : Nat) (rest : List Nat)
    (sp : Option Mem) (bufsize : Nat) (hwf : wf h q (n :: rest)) (hint : q.size ≤ INT_MAX)
    (hdst : sp = none ∨ (1 ≤ bufsize ∧ bufsize ≤ SIZE_MAX)) :
    ∃ h' q' sp', q_remove_head h (some q) sp bufsize = .ok (h', some q', sp', true) ∧
      isChain h' q'.head rest = true ∧
      q'.size = (rest.length : Int) ∧ q'.size = q.size - 1 ∧
      (rest = [] → q'.head = 0) ∧
      h' n = none ∧ (∀ a, a ≠ n → h' a = h a) := by
  obtain ⟨hc, hsize, -, -⟩ := hwf
  have hnodup := isChain_nodup hc
  obtain ⟨hq, hn, nd, hnd, hrest⟩ := (isChain_cons_iff h q.head n rest).1 hc
  have hn' : q.head ≠ 0 := hq ▸ hn
  have hnr : n ∉ rest := (List.nodup_cons.1 hnodup).1
  obtain ⟨sp', hrun⟩ := q_remove_head_ok h q nd sp bufsize hn' (hq ▸ hnd) hdst
  have hw : int_wrap (q.size - 1) = (rest.length : Int) := by
    rw [hsize] at hint ⊢
    exact int_wrap_pred rest.length hint
  refine ⟨_, _, sp', hrun, ?_, hw, ?_, ?_, ?_, ?_⟩
  · rw [hq]
    exact isChain_frame hrest (fun a ha => release_other h n a (fun e => hnr (e ▸ ha)))
  · show int_wrap (q.size - 1) = q.size - 1
    rw [hw, hsize, List.length_cons]; push_cast; ring
  · intro e
    subst e
    simpa [isChain] using hrest
  · rw [hq]; exact release_same h n
  · intro a ha
    rw [hq]; exact release_other h n a ha

/-- C7 (refuted for a destination of capacity 0): on the example queue, which
is well-formed with the nodes 1, 2, 3, 4, `q_remove_head` with a destination
buffer and `bufsize = 0` does not return true: `bufsize - 1` is `SIZE_MAX` and
the copy of that many bytes runs off the destination before the node is
unlinked.  Without a destination, and with a destination of capacity 1, the same
call returns true and leaves the chain 2, 3, 4 with count 3. -/
theorem q_remove_head_overrun :
    wf fruit.1 fruit.2 [1, 2, 3, 4] ∧
    q_remove_head fruit.1 (some fruit.2) (some junk) 0 = .error .overrun ∧
    (∃ h' q', q_remove_head fruit.1 (some fruit.2) none 0 = .ok (h', some q', none, true) ∧
      isChain h' q'.head [2, 3, 4] = true ∧ q'.size = 3) ∧
    (∃ h' q' m', q_remove_head fruit.1 (some fruit.2) (some junk) 1 =
        .ok (h', some q', some m', true) ∧
      isChain h' q'.head [2, 3, 4] = true ∧ q'.size = 3) :=
  ⟨by decide, rfl, ⟨_, _, rfl, by decide, by decide⟩, ⟨_, _, _, rfl, by decide, by decide⟩⟩

theorem take_min_length (t : List Nat) (k : Nat) : t.take (min t.length k) = t.take k := by
  rcases Nat.le_total t.length k with hle | hle
  · rw [Nat.min_eq_left hle, List.take_of_length_le (le_refl _), List.take_of_length_le hle]
  · rw [Nat.min_eq_right hle]

/-- C8: `q_remove_head` on a well-formed non-empty queue with a supplied
destination of capacity `c`, `1 <= c <= SIZE_MAX`: the first `c` bytes of the
destination, read as a NUL-terminated string, are the first `min(|v|, c - 1)`
bytes of the head's text `v`; the byte at index `min(|v|, c - 1)`, which is at
most `c - 1`, is NUL; and no byte at an index `>= c` is changed. -/
theorem q_remove_head_copy (h : Heap) (q : queue_t) (n : Nat) (rest : List Nat)
    (m : Mem) (c : Nat) (hwf : wf h q (n :: rest)) (hc1 : 1 ≤ c) (hc2 : c ≤ SIZE_MAX) :
    ∃ h' q' m', q_remove_head h (some q) (some m) c = .ok (h', q', some m', true) ∧
      cstr (readMem m' c) = (textOf h n).take (min (textOf h n).length (c - 1)) ∧
      min (textOf h n).length (c - 1) ≤ c - 1 ∧
      m' (min (textOf h n).length (c - 1)) = 0 ∧
      (∀ i, c ≤ i → m' i = m i) := by
  obtain ⟨hc, -, -, hval⟩ := hwf
  obtain ⟨hq, hn, nd, hnd, -⟩ := (isChain_cons_iff h q.head n rest).1 hc
  have hn' : q.head ≠ 0 := hq ▸ hn
  obtain ⟨nd2, hnd2, hv⟩ := hasValue_iff.1 (hval n (List.mem_cons_self _ _))
  rw [hnd] at hnd2; cases hnd2
  set buf := bufOf h n with hbuf
  have htext : textOf h n = cstr buf := rfl
  have hno : ¬ SIZE_MAX ≤ c - 1 := by omega
  refine ⟨release h n, some { q with head := nd.next, size := int_wrap (q.size - 1) },
    poke (strncpy m buf (c - 1)) (c - 1) 0, ?_, ?_, Nat.min_le_right _ _, ?_, ?_⟩
  · simp only [q_remove_head, hq, hn, if_false, load_ok hn hnd, hv, copy_out,
      size_pred_pos c hc1 hc2, hno]
  · rw [readMem_copy_out m buf c hc1, htext, take_min_length]
    have hk : c - min (strlen buf) (c - 1) = (c - min (strlen buf) (c - 1) - 1) + 1 := by omega
    rw [hk, List.replicate_succ]
    exact cstr_append_zero _ _ (fun b hb => cstr_ne_zero buf b (List.mem_of_mem_take hb))
  · rw [htext]
    simp only [poke, strncpy]
    by_cases hlast : min (cstr buf).length (c - 1) = c - 1
    · rw [if_pos hlast]
    · rw [if_neg hlast]
      have : min (cstr buf).length (c - 1) < c - 1 := by omega
      rw [if_pos this, if_neg (by simp only [strlen]; omega)]
  · intro i hi
    simp only [poke, strncpy]
    rw [if_neg (by omega), if_neg (by omega)]

/-- C8, on the example queue: "banana" copied into a buffer of capacity 4. -/
theorem q_remove_head_copy_witness :
    wf fruit.1 fruit.2 [1, 2, 3, 4] ∧
    ∃ h' q' m', q_remove_head fruit.1 (some fruit.2) (some junk) 4 =
        .ok (h', q', some m', true) ∧
      cstr (readMem m' 4) = [98, 97, 110] ∧ m' 3 = 0 ∧ (∀ i, 4 ≤ i → m' i = junk i) := by
  refine ⟨by decide, ?_⟩
  obtain ⟨h', q', m', hrun, hcp, -, hz, hfr⟩ :=
    q_remove_head_copy fruit.1 fruit.2 1 [2, 3, 4] junk 4 (by decide) (by decide) (by decide)
  exact ⟨h', q', m', hrun, hcp, hz, hfr⟩

/-- C9 (refuted at capacity 0): with `bufsize = 0` the count `bufsize - 1` wraps
to `SIZE_MAX`.  Removing the head "banana" of the example queue then copies
into the destination from index 0 on: the text, NUL padding far beyond it, and
a NUL at index `SIZE_MAX`, although no index is below the capacity; the copy
runs off the destination and the call does not return. -/
theorem q_remove_head_zero_capacity :
    size_pred 0 = SIZE_MAX ∧ bufOf fruit.1 fruit.2.head = banana ∧
    junk 0 = 170 ∧ copy_out junk banana 0 0 = 98 ∧ copy_out junk banana 0 5 = 97 ∧
    copy_out junk banana 0 6 = 0 ∧ copy_out junk banana 0 1000000 = 0 ∧
    copy_out junk banana 0 SIZE_MAX = 0 ∧
    q_remove_head fruit.1 (some fruit.2) (some junk) 0 = .error .overrun :=
  ⟨by decide, by decide, by decide, by decide, by decide, by decide, by decide, by decide, rfl⟩

/-- C10: `q_remove_head` returns false when the queue is absent or its head is
NULL, and then hands back the heap, the queue and the destination as they were;
and whenever it returns false the queue was absent or its head was NULL. -/
theorem q_remove_head_false (h : Heap) (q : Option queue_t) (sp : Option Mem) (bufsize : Nat) :
    ((q = none ∨ ∃ e, q = some e ∧ e.head = 0) →
      q_remove_head h q sp bufsize = .ok (h, q, sp, false)) ∧
    (∀ h' q' sp', q_remove_head h q sp bufsize = .ok (h', q', sp', false) →
      q = none ∨ ∃ e, q = some e ∧ e.head = 0) := by
  constructor
  · rintro (rfl | ⟨e, rfl, he⟩)
    · rfl
    · simp [q_remove_head, he]
  · intro h' q' sp' hrun
    cases q with
    | none => exact Or.inl rfl
    | some e =>
      refine Or.inr ⟨e, rfl, ?_⟩
      by_contra he
      simp only [q_remove_head, he, if_false] at hrun
      cases hl : load h e.head with
      | error err => rw [hl] at hrun; cases hrun
      | ok nd =>
        rw [hl] at hrun
        simp only [] at hrun
        split at hrun
        · cases hrun
        · simp only [Except.ok.injEq, Prod.mk.injEq] at hrun
          exact absurd hrun.2.2.2 (by decide)

/-- C10, on a new empty queue and on the example queue. -/
theorem q_remove_head_false_witness :
    q_remove_head emptyHeap (q_new true) (some junk) 8 =
      .ok (emptyHeap, q_new true, some junk, false) ∧
    ¬ ∃ h' q' sp', q_remove_head fruit.1 (some fruit.2) sp' 8 = .ok (h', q', sp', false) := by
  refine ⟨(q_remove_head_false emptyHeap (q_new true) (some junk) 8).1
    (Or.inr ⟨_, rfl, rfl⟩), ?_⟩
  rintro ⟨h', q', sp', hrun⟩
  rcases (q_remove_head_false fruit.1 (some fruit.2) sp' 8).2 h' q' sp' hrun with h0 | ⟨e, he, h0⟩
  · cases h0
  · cases he
    exact absurd h0 (by decide)

/-! ## Well-formedness is kept by the operations -/

theorem hasValue_store_other (h : Heap) (p a : Nat) (nd : list_ele_t) (hne : a ≠ p) :
    hasValue (store h p nd) a = hasValue h a := by
  simp [hasValue, store, hne]

/-- The result of `q_insert_head` when both allocations succeed. -/
theorem q_insert_head_ok (h : Heap) (q : queue_t) (s : List Nat) (newh : Nat) (fresh : Mem)
    (hnew : newh ≠ 0) :
    q_insert_head h (some q) s newh (some fresh) =
      (store h newh { value := some (copy_value fresh s), next := q.head },
        some { head := newh, tail := if q.head = 0 then newh else q.tail,
               size := int_wrap (q.size + 1) },
        true) := by
  simp only [q_insert_head, hnew, if_false]
  by_cases h0 : q.head = 0 <;> simp [h0]

/-- A successful `q_insert_head` keeps a queue of fewer than `INT_MAX` elements
well-formed. -/
theorem wf_insert_head (h : Heap) (q : queue_t) (ns : List Nat) (s : List Nat)
    (newh : Nat) (fresh : Mem) (hwf : wf h q ns) (hnew : newh ≠ 0) (hfree : h newh = none)
    (hlt : (ns.length : Int) < INT_MAX) :
    wf (store h newh { value := some (copy_value fresh s), next := q.head })
      { head := newh, tail := if q.head = 0 then newh else q.tail,
        size := int_wrap (q.size + 1) }
      (newh :: ns) := by
  obtain ⟨hc, hsize, htail, hval⟩ := hwf
  have hnot : newh ∉ ns := not_mem_of_free hc hfree
  have hne : ∀ a ∈ ns, a ≠ newh := fun a ha e => hnot (e ▸ ha)
  refine ⟨?_, ?_, ?_, ?_⟩
  · refine (isChain_cons_iff _ _ _ _).2 ⟨rfl, hnew, _, store_same h newh _, ?_⟩
    exact isChain_frame hc (fun a ha => store_other h newh a _ (hne a ha))
  · simp only [hsize, List.length_cons]
    rw [int_wrap_succ ns.length hlt]
    push_cast; ring
  · cases ns with
    | nil =>
      have : q.head = 0 := by simpa [isChain] using hc
      simp [this]
    | cons n rest =>
      have hn := (isChain_cons_iff h q.head n rest).1 hc
      have : q.head ≠ 0 := by rw [hn.1]; exact hn.2.1
      simp only [this, if_false, htail, List.getLastD_cons]
  · intro p hp
    rcases List.mem_cons.1 hp with rfl | hp
    · simp [hasValue, store]
    · rw [hasValue_store_other h newh p _ (hne p hp)]
      exact hval p hp

/-- A successful `q_insert_tail` on a well-formed queue of fewer than `INT_MAX`
elements returns, and keeps the queue well-formed. -/
theorem wf_insert_tail (h : Heap) (q : queue_t) (ns : List Nat) (s : List Nat)
    (newt : Nat) (fresh : Mem) (hwf : wf h q ns) (hnew : newt ≠ 0) (hfree : h newt = none)
    (hlt : (ns.length : Int) < INT_MAX) :
    ∃ h' q', q_insert_tail h (some q) s newt (some fresh) = .ok (h', some q', true) ∧
      wf h' q' (ns ++ [newt]) ∧ q'.size = q.size + 1 ∧
      (∀ a, a ∉ ns → a ≠ newt → h' a = h a) := by
  obtain ⟨hc, hsize, htail, hval⟩ := hwf
  have hw : int_wrap (q.size + 1) = q.size + 1 := by
    rw [hsize]; exact int_wrap_succ ns.length hlt
  have hnot : newt ∉ ns := not_mem_of_free hc hfree
  have hne : ∀ a ∈ ns, a ≠ newt := fun a ha e => hnot (e ▸ ha)
  set nd0 : list_ele_t := { value := some (copy_value fresh s), next := 0 } with hnd0
  set h1 := store h newt nd0 with hh1
  by_cases hemp : ns = []
  · subst hemp
    have ht : q.tail = 0 := by simpa using htail
    refine ⟨h1, { q with head := newt, tail := newt, size := q.size + 1 }, ?_, ⟨?_, ?_, rfl, ?_⟩,
      rfl, fun a _ ha => store_other h newt a _ ha⟩
    · simp [q_insert_tail, hnew, ht, hh1, hnd0, hw]
    · exact (isChain_cons_iff _ _ _ _).2 ⟨rfl, hnew, nd0, store_same h newt _, rfl⟩
    · simp [hsize]
    · intro p hp
      simp only [List.nil_append, List.mem_singleton] at hp
      subst hp
      simp [hasValue, hh1, store, hnd0]
  · have hlm : ns.getLastD 0 ∈ ns := getLastD_mem hemp 0
    have ht0 : q.tail ≠ 0 := by
      rw [htail]; exact isChain_ne_zero hc _ hlm
    obtain ⟨ndt, hndt⟩ := isChain_live hc _ hlm
    have htn : ns.getLastD 0 ≠ newt := hne _ hlm
    have h1t : h1 (ns.getLastD 0) = some ndt := by
      rw [hh1, store_other h newt _ _ htn, hndt]
    set h2 := store h1 (ns.getLastD 0) { ndt with next := newt } with hh2
    have h2new : h2 newt = some nd0 := by
      rw [hh2, store_other h1 _ newt _ (fun e => htn e.symm), hh1, store_same]
    have h2old : ∀ a, a ≠ ns.getLastD 0 → a ≠ newt → h2 a = h a := by
      intro a hal han
      rw [hh2, store_other h1 _ a _ hal, hh1, store_other h newt a _ han]
    have h2l : h2 (ns.getLastD 0) = some { ndt with next := newt } := by
      rw [hh2, store_same]
    refine ⟨h2, { q with tail := newt, size := q.size + 1 }, ?_, ⟨?_, ?_, ?_, ?_⟩, rfl, ?_⟩
    · simp only [q_insert_tail, hnew, if_false, ht0, hw]
      rw [htail, ← hnd0, ← hh1, write_next_live h1 _ newt ndt h1t]
    · refine isChain_append h h2 newt [newt] ns q.head hc hemp
        (fun a ha hal => h2old a hal (hne a ha)) ⟨ndt, hndt, h2l⟩ ?_
      exact (isChain_cons_iff _ _ _ _).2 ⟨rfl, hnew, nd0, h2new, rfl⟩
    · simp [hsize]
    · exact (getLastD_append_singleton ns newt 0).symm
    · intro p hp
      rcases List.mem_append.1 hp with hp | hp
      · by_cases hpl : p = ns.getLastD 0
        · have hv := hval p hp
          rw [hpl] at hv ⊢
          simp only [hasValue, hndt] at hv
          simp only [hasValue, h2l]
          exact hv
        · simp only [hasValue, h2old p hpl (hne p hp)]
          exact hval p hp
      · simp only [List.mem_singleton] at hp
        subst hp
        simp [hasValue, h2new, hnd0]
    · intro a ha han
      exact h2old a (fun e => ha (e ▸ hlm)) han

/-- Removing the head of a queue of at least two elements keeps it well-formed. -/
theorem wf_remove_head (h : Heap) (q : queue_t) (n m : Nat) (rest : List Nat)
    (sp : Option Mem) (bufsize : Nat) (hwf : wf h q (n :: m :: rest)) (hint : q.size ≤ INT_MAX)
    (hdst : sp = none ∨ (1 ≤ bufsize ∧ bufsize ≤ SIZE_MAX)) :
    ∃ h' q' sp', q_remove_head h (some q) sp bufsize = .ok (h', some q', sp', true) ∧
      wf h' q' (m :: rest) := by
  obtain ⟨hc, hsize, htail, hval⟩ := hwf
  have hnodup := isChain_nodup hc
  obtain ⟨hq, hn, nd, hnd, hrest⟩ := (isChain_cons_iff h q.head n (m :: rest)).1 hc
  have hnr : n ∉ m :: rest := (List.nodup_cons.1 hnodup).1
  have h0 : q.head ≠ 0 := hq ▸ hn
  obtain ⟨sp', hrun⟩ := q_remove_head_ok h q nd sp bufsize h0 (hq ▸ hnd) hdst
  refine ⟨_, _, sp', hrun, ?_, ?_, ?_, ?_⟩
  · rw [hq]
    exact isChain_frame hrest (fun a ha => release_other h n a (fun e => hnr (e ▸ ha)))
  · show int_wrap (q.size - 1) = ((m :: rest).length : Int)
    rw [hsize] at hint ⊢
    exact int_wrap_pred (m :: rest).length hint
  · simp only [htail, List.getLastD_cons]
  · intro p hp
    have hpn : p ≠ n := fun e => hnr (e ▸ hp)
    have := hval p (List.mem_cons_of_mem _ hp)
    rw [hq]
    simpa [hasValue, release, hpn] using this

/-- The function `q_reverse` keeps a queue well-formed, swapping head and tail. -/
theorem wf_reverse (fuel : Nat) (h : Heap) (q : queue_t) (ns : List Nat)
    (hwf : wf h q ns) (hf : ns.length < fuel) :
    ∃ h', q_reverse fuel h (some q) =
        .ok (h', some { head := q.tail, tail := q.head, size := q.size }) ∧
      wf h' { head := q.tail, tail := q.head, size := q.size } ns.reverse ∧
      (∀ a, a ∉ ns → h' a = h a) ∧ sameValues h h' := by
  obtain ⟨hc, hsize, htail, hval⟩ := hwf
  by_cases hemp : ns = []
  · subst hemp
    have hh : q.head = 0 := by simpa [isChain] using hc
    have ht : q.tail = 0 := by simpa using htail
    refine ⟨h, ?_, ⟨?_, ?_, ?_, ?_⟩, fun _ _ => rfl, sameValues_refl h⟩
    · simp only [q_reverse, hh, if_true, ht]
      cases q
      simp_all
    · simp [isChain, ht]
    · simpa using hsize
    · simp [hh]
    · intro p hp; simp at hp
  · obtain ⟨h', hrun, hch, hfr, hsv⟩ :=
      reverse_loop_spec ns fuel h 0 q.head [] hc rfl (fun _ _ => by simp) hf
    simp only [List.append_nil] at hrun hch
    have h0 : q.head ≠ 0 := by
      intro e
      rw [e] at hc
      exact hemp (isChain_zero hc)
    have hhd : ns.reverse.headD 0 = q.tail := by rw [headD_reverse, htail]
    rw [hhd] at hrun hch
    refine ⟨h', ?_, ⟨hch, ?_, ?_, ?_⟩, hfr, hsv⟩
    · simp only [q_reverse, h0, if_false, hrun]
    · simpa using hsize
    · rw [getLastD_reverse]
      exact isChain_head hc
    · intro p hp
      rw [sameValues_hasValue hsv]
      exact hval p (List.mem_reverse.1 hp)

/-- The function `q_sort` keeps a queue well-formed: in particular the tail is
the last node of the sorted chain. -/
theorem wf_sort (fuel : Nat) (h : Heap) (q : queue_t) (ns : List Nat)
    (hwf : wf h q ns) (hf : ns.length < fuel) :
    ∃ h', q_sort fuel h (some q) =
        .ok (h', some { head := (listSort (bufOf h) ns).headD 0,
                        tail := (listSort (bufOf h) ns).getLastD 0, size := q.size }) ∧
      wf h' { head := (listSort (bufOf h) ns).headD 0,
              tail := (listSort (bufOf h) ns).getLastD 0, size := q.size }
        (listSort (bufOf h) ns) ∧
      (∀ a, a ∉ ns → h' a = h a) ∧ sameValues h h' := by
  obtain ⟨h', hrun, hch, hfr, hsv⟩ := q_sort_spec fuel h q ns hwf hf
  obtain ⟨-, hsize, -, hval⟩ := hwf
  have hperm := listSort_perm (bufOf h) ns
  refine ⟨h', hrun, ⟨hch, ?_, rfl, ?_⟩, hfr, hsv⟩
  · simp only [hperm.length_eq]; exact hsize
  · intro p hp
    rw [sameValues_hasValue hsv]
    exact hval p (hperm.mem_iff.1 hp)

/-! ## Failing insertions -/

/-- The result of `q_insert_tail` when both allocations succeed. -/
theorem q_insert_tail_ok (h : Heap) (q : queue_t) (s : List Nat) (newt : Nat) (fresh : Mem)
    (hnew : newt ≠ 0) :
    q_insert_tail h (some q) s newt (some fresh) =
      .ok (if q.tail = 0 then store h newt { value := some (copy_value fresh s), next := 0 }
           else write_next (store h newt { value := some (copy_value fresh s), next := 0 })
             q.tail newt,
        some { head := if q.tail = 0 then newt else q.head, tail := newt,
               size := int_wrap (q.size + 1) },
        true) := by
  simp only [q_insert_tail, hnew, if_false]
  by_cases h0 : q.tail = 0 <;> simp [h0]

/-- C11: `q_insert_head` and `q_insert_tail` return false, with the heap and the
queue exactly as before, when the queue is absent, the node allocation fails or
the buffer allocation fails; in every other case both return true. -/
theorem q_insert_failure (h : Heap) (q : Option queue_t) (s : List Nat) (p : Nat)
    (vbuf : Option Mem) :
    ((q = none ∨ p = 0 ∨ vbuf = none) →
      q_insert_head h q s p vbuf = (h, q, false) ∧
      q_insert_tail h q s p vbuf = .ok (h, q, false)) ∧
    (¬ (q = none ∨ p = 0 ∨ vbuf = none) →
      (∃ h' q', q_insert_head h q s p vbuf = (h', some q', true)) ∧
      (∃ h' q', q_insert_tail h q s p vbuf = .ok (h', some q', true))) := by
  constructor
  · rintro (rfl | rfl | rfl)
    · exact ⟨rfl, rfl⟩
    · cases q <;> simp [q_insert_head, q_insert_tail]
    · cases q with
      | none => exact ⟨rfl, rfl⟩
      | some e =>
        by_cases hp : p = 0 <;> simp [q_insert_head, q_insert_tail, hp]
  · intro hno
    simp only [not_or] at hno
    obtain ⟨hq, hp, hv⟩ := hno
    obtain ⟨e, rfl⟩ := Option.ne_none_iff_exists'.1 hq
    obtain ⟨fresh, rfl⟩ := Option.ne_none_iff_exists'.1 hv
    exact ⟨⟨_, _, q_insert_head_ok h e s p fresh hp⟩, ⟨_, _, q_insert_tail_ok h e s p fresh hp⟩⟩

/-- C11, on the example queue and on the queue left by removing the only
element: a failed buffer allocation changes nothing, and with both allocations
granted the calls return true. -/
theorem q_insert_failure_witness :
    q_insert_head fruit.1 (some fruit.2) cherry 9 none = (fruit.1, some fruit.2, false) ∧
    q_insert_tail fruit.1 (some fruit.2) cherry 9 none = .ok (fruit.1, some fruit.2, false) ∧
    (∃ h' q', q_insert_head fruit.1 (some fruit.2) cherry 9 (some junk) = (h', some q', true)) ∧
    (∃ h' q', q_insert_tail fruit.1 (some fruit.2) cherry 9 (some junk) =
      .ok (h', some q', true)) ∧
    (∃ h' q', q_insert_tail drained.1 (some drained.2) banana 2 (some junk) =
      .ok (h', some q', true)) := by
  have h1 := (q_insert_failure fruit.1 (some fruit.2) cherry 9 none).1 (Or.inr (Or.inr rfl))
  have h2 := (q_insert_failure fruit.1 (some fruit.2) cherry 9 (some junk)).2 (by simp)
  have h3 := (q_insert_failure drained.1 (some drained.2) banana 2 (some junk)).2 (by simp)
  exact ⟨h1.1, h1.2, h2.1, h2.2, h3.2⟩

/-! ## The tail pointer after the last element is removed -/

/-- C12 (refuted for `q_insert_tail`): `q_remove_head` leaves `q->tail` pointing at
the node it frees.  On the queue `drained` (one element inserted and removed:
head NULL, tail 1, size 0, address 1 free) `q_insert_tail` takes the branch of
a non-empty queue and stores through that tail: it returns true and sets tail
and size, but head stays NULL, so the chain from head is empty with size 1.
This is so when the new node is at another address (the store lands in the
released node), and when `malloc` hands out address 1 again (the new node is
linked to itself).  On a new queue the same call makes the node head and tail,
and `q_insert_head` on `drained` does so too. -/
theorem q_insert_tail_after_drain :
    drained.2 = { head := 0, tail := 1, size := 0 } ∧ drained.1 1 = none ∧
    (∃ h' q', q_insert_tail drained.1 (some drained.2) banana 2 (some junk) =
        .ok (h', some q', true) ∧
      q'.head = 0 ∧ q'.tail = 2 ∧ q'.size = 1 ∧ chainFrom 5 h' q'.head = [] ∧
      h' 1 = none ∧ (h' 2).map (fun nd => nd.next) = some 0) ∧
    (∃ h' q', q_insert_tail drained.1 (some drained.2) banana 1 (some junk) =
        .ok (h', some q', true) ∧
      q'.head = 0 ∧ q'.tail = 1 ∧ q'.size = 1 ∧ chainFrom 5 h' q'.head = [] ∧
      (h' 1).map (fun nd => nd.next) = some 1) ∧
    (∃ h' q', q_insert_tail emptyHeap (q_new true) banana 1 (some junk) =
        .ok (h', some q', true) ∧
      q'.head = 1 ∧ q'.tail = 1 ∧ q'.size = 1 ∧ chainFrom 5 h' q'.head = [1]) ∧
    (∃ h' q', q_insert_head drained.1 (some drained.2) banana 1 (some junk) =
        (h', some q', true) ∧
      q'.head = 1 ∧ q'.tail = 1 ∧ q'.size = 1 ∧ chainFrom 5 h' q'.head = [1]) :=
  ⟨by decide, by decide,
    ⟨_, _, rfl, by decide, by decide, by decide, by decide, by decide, by decide⟩,
    ⟨_, _, rfl, by decide, by decide, by decide, by decide, by decide⟩,
    ⟨_, _, rfl, by decide, by decide, by decide, by decide⟩,
    ⟨_, _, rfl, by decide, by decide, by decide, by decide⟩⟩

/-- C13 (refuted): after inserting one element and removing it the count is 0
and head is NULL but tail still holds the address of the freed node; and when
the next `q_insert_tail` gets that address again, the count is 1 while no node
is reachable from head. -/
theorem invariant_broken_after_drain :
    (∃ h q, run_ops 0 emptyHeap (q_new true)
        [.insert_tail apple 1 (some junk), .remove_head none 0] = .ok (h, some q, [true, true]) ∧
      q.size = 0 ∧ q.head = 0 ∧ q.tail = 1 ∧ h 1 = none) ∧
    (∃ h q, run_ops 0 emptyHeap (q_new true)
        [.insert_tail apple 1 (some junk), .remove_head none 0,
          .insert_tail banana 1 (some junk)] = .ok (h, some q, [true, true, true]) ∧
      q.size = 1 ∧ q.head = 0 ∧ chainFrom 5 h q.head = []) :=
  ⟨⟨_, _, rfl, by decide, by decide, by decide, by decide⟩,
    ⟨_, _, rfl, by decide, by decide, by decide⟩⟩

/-! ## The element count along a sequence of calls -/

/-- The links of the nodes of a chain are determined by its node sequence. -/
theorem isChain_next_eq {h h' : Heap} {ns : List Nat} :
    ∀ {p : Nat}, isChain h p ns = true → isChain h' p ns = true →
      ∀ a ∈ ns, (h' a).map (fun nd => nd.next) = (h a).map (fun nd => nd.next) := by
  induction ns with
  | nil => intro p _ _ a ha; simp at ha
  | cons n rest ih =>
    intro p hc hc' a ha
    have hnodup := isChain_nodup hc
    obtain ⟨-, -, nd, hnd, hrest⟩ := (isChain_cons_iff h p n rest).1 hc
    obtain ⟨-, -, nd', hnd', hrest'⟩ := (isChain_cons_iff h' p n rest).1 hc'
    have e1 := isChain_head hrest
    have e2 := isChain_head hrest'
    rcases List.mem_cons.1 ha with rfl | ha
    · simp only [hnd, hnd', Option.map_some', e1, e2]
    · rw [e2] at hrest'
      rw [e1] at hrest
      exact ih hrest hrest' a ha

/-- Two heaps that hold the same values, agree outside a chain and both contain
that chain are equal. -/
theorem heap_eq_of_chain {h h' : Heap} {p : Nat} {ns : List Nat}
    (hc : isChain h p ns = true) (hc' : isChain h' p ns = true)
    (hfr : ∀ a, a ∉ ns → h' a = h a) (hsv : sameValues h h') : h' = h := by
  funext a
  by_cases ha : a ∈ ns
  · obtain ⟨nd, hnd⟩ := isChain_live hc a ha
    obtain ⟨nd', hnd'⟩ := isChain_live hc' a ha
    have hv := hsv a
    have hn := isChain_next_eq hc hc' a ha
    rw [hnd, hnd'] at hv hn
    simp only [Option.map_some', Option.some.injEq] at hv hn
    rw [hnd, hnd']
    cases nd; cases nd'
    simp_all
  · exact hfr a ha

theorem pairwise_take_drop {r : Nat → Nat → Prop} {ns : List Nat} (k : Nat)
    (hs : ns.Pairwise r) :
    (ns.take k).Pairwise r ∧ (ns.drop k).Pairwise r ∧
      ∀ a ∈ ns.take k, ∀ b ∈ ns.drop k, r a b := by
  have := hs
  rw [← List.take_append_drop k ns, List.pairwise_append] at this
  exact this

/-- The list-level sort leaves an ascending list as it is. -/
theorem listSort_of_sorted (key : Nat → List Nat) (ns : List Nat)
    (hs : ns.Pairwise (fun a b => leKey key a b = true)) : listSort key ns = ns := by
  obtain ⟨n, hn⟩ : ∃ n, ns.length = n := ⟨_, rfl⟩
  induction n using Nat.strong_induction_on generalizing ns with
  | _ n ih =>
    subst hn
    by_cases h : ns.length ≤ 1
    · exact listSort_small key ns h
    · rw [listSort_big key ns h]
      obtain ⟨h1, h2, h3⟩ := pairwise_take_drop (ns.length / 2) hs
      rw [ih (ns.take (ns.length / 2)).length (by simp only [List.length_take]; omega) _ h1 rfl,
        ih (ns.drop (ns.length / 2)).length (by simp only [List.length_drop]; omega) _ h2 rfl,
        List.merge_of_le (fun a b ha hb => h3 a ha b hb), List.take_append_drop]

/-- C15: on a well-formed queue, `q_reverse` applied twice gives back the very
state it started from: the same heap (every node with its value and its link),
the same head, tail and count, hence the original node sequence. -/
theorem q_reverse_twice (fuel : Nat) (h : Heap) (q : queue_t) (ns : List Nat)
    (hwf : wf h q ns) (hf : ns.length < fuel) :
    ∃ h1 q1, q_reverse fuel h (some q) = .ok (h1, some q1) ∧
      isChain h1 q1.head ns.reverse = true ∧
      q_reverse fuel h1 (some q1) = .ok (h, some q) ∧ isChain h q.head ns = true := by
  obtain ⟨h1, hrun1, hwf1, hfr1, hsv1⟩ := wf_reverse fuel h q ns hwf hf
  obtain ⟨h2, hrun2, hwf2, hfr2, hsv2⟩ :=
    wf_reverse fuel h1 _ ns.reverse hwf1 (by simpa using hf)
  refine ⟨h1, _, hrun1, hwf1.1, ?_, hwf.1⟩
  have hc2 : isChain h2 q.head ns = true := by simpa using hwf2.1
  have heq : h2 = h :=
    heap_eq_of_chain hwf.1 hc2
      (fun a ha => by
        rw [hfr2 a (fun e => ha (List.mem_reverse.1 e)), hfr1 a ha])
      (sameValues_trans hsv1 hsv2)
  rw [hrun2, heq]

/-- C15, on the example queue. -/
theorem q_reverse_twice_witness :
    wf fruit.1 fruit.2 [1, 2, 3, 4] ∧
    ∃ h1 q1, q_reverse 5 fruit.1 (some fruit.2) = .ok (h1, some q1) ∧
      isChain h1 q1.head [4, 3, 2, 1] = true ∧
      q_reverse 5 h1 (some q1) = .ok (fruit.1, some fruit.2) := by
  refine ⟨by decide, ?_⟩
  obtain ⟨h1, q1, hr1, hc1, hr2, -⟩ :=
    q_reverse_twice 5 fruit.1 fruit.2 [1, 2, 3, 4] (by decide) (by decide)
  exact ⟨h1, q1, hr1, hc1, hr2⟩

/-- C16: on a well-formed queue, `q_sort` applied to the result of `q_sort`
returns that result unchanged: the same heap, hence the same node sequence, and
the same head, tail and count. -/
theorem q_sort_twice (fuel : Nat) (h : Heap) (q : queue_t) (ns : List Nat)
    (hwf : wf h q ns) (hf : ns.length < fuel) :
    ∃ h1 q1 ms, q_sort fuel h (some q) = .ok (h1, some q1) ∧
      isChain h1 q1.head ms = true ∧
      q_sort fuel h1 (some q1) = .ok (h1, some q1) := by
  obtain ⟨h1, hrun1, hwf1, -, hsv1⟩ := wf_sort fuel h q ns hwf hf
  have hlen := (listSort_perm (bufOf h) ns).length_eq
  obtain ⟨h2, hrun2, hwf2, hfr2, hsv2⟩ :=
    wf_sort fuel h1 _ (listSort (bufOf h) ns) hwf1 (by rw [hlen]; exact hf)
  have hb : bufOf h1 = bufOf h := funext (sameValues_bufOf hsv1)
  have hid : listSort (bufOf h1) (listSort (bufOf h) ns) = listSort (bufOf h) ns := by
    rw [hb]
    exact listSort_of_sorted _ _ (listSort_sorted (bufOf h) ns)
  rw [hid] at hrun2 hwf2
  have heq : h2 = h1 := heap_eq_of_chain hwf1.1 hwf2.1 hfr2 hsv2
  refine ⟨h1, _, listSort (bufOf h) ns, hrun1, hwf1.1, ?_⟩
  rw [hrun2, heq]

/-- C16, on the example queue. -/
theorem q_sort_twice_witness :
    wf fruit.1 fruit.2 [1, 2, 3, 4] ∧
    ∃ h1 q1 ms, q_sort 5 fruit.1 (some fruit.2) = .ok (h1, some q1) ∧
      isChain h1 q1.head ms = true ∧
      q_sort 5 h1 (some q1) = .ok (h1, some q1) :=
  ⟨by decide, q_sort_twice 5 fruit.1 fruit.2 [1, 2, 3, 4] (by decide) (by decide)⟩

/-! ## Round trip -/

/-- The text left in the destination by the copy-out of `q_remove_head`. -/
theorem cstr_copy_out (m : Mem) (buf : List Nat) (c : Nat) (hc : 1 ≤ c) :
    cstr (readMem (poke (strncpy m buf (c - 1)) (c - 1) 0) c) =
      (cstr buf).take (min (cstr buf).length (c - 1)) := by
  rw [readMem_copy_out m buf c hc, take_min_length]
  have hk : c - min (strlen buf) (c - 1) = (c - min (strlen buf) (c - 1) - 1) + 1 := by omega
  rw [hk, List.replicate_succ]
  exact cstr_append_zero _ _ (fun b hb => cstr_ne_zero buf b (List.mem_of_mem_take hb))

/-- C17: inserting `s` at the tail of a newly created queue (both allocations
granted) and removing from the head into a
destination of capacity `c`, `1 <= c <= SIZE_MAX`, returns true both times; the
destination then reads as the first `min(|V|, c - 1)` bytes of the text `V` of
`s`, with a NUL right behind them, which is `V` itself when `c > |V|`; the queue
is left with count 0 and a NULL head, and the node is freed. -/
theorem insert_tail_remove_head_round_trip (h : Heap) (s : List Nat) (newt : Nat)
    (fresh m : Mem) (c : Nat) (hnew : newt ≠ 0) (hc1 : 1 ≤ c) (hc2 : c ≤ SIZE_MAX) :
    ∃ h1 q1 h2 q2 m', q_insert_tail h (q_new true) s newt (some fresh) = .ok (h1, some q1, true) ∧
      q_remove_head h1 (some q1) (some m) c = .ok (h2, some q2, some m', true) ∧
      cstr (readMem m' c) = (cstr s).take (min (cstr s).length (c - 1)) ∧
      m' (min (cstr s).length (c - 1)) = 0 ∧
      ((cstr s).length < c → cstr (readMem m' c) = cstr s) ∧
      q2.size = 0 ∧ q2.head = 0 ∧ h2 newt = none := by
  set nd0 : list_ele_t := { value := some (copy_value fresh s), next := 0 } with hnd0
  have hcopy : cstr (readMem (poke (strncpy m (copy_value fresh s) (c - 1)) (c - 1) 0) c) =
      (cstr s).take (min (cstr s).length (c - 1)) := by
    rw [cstr_copy_out m _ c hc1, cstr_copy_value]
  refine ⟨store h newt nd0, { head := newt, tail := newt, size := 1 }, release (store h newt nd0) newt,
    { head := 0, tail := newt, size := 0 },
    poke (strncpy m (copy_value fresh s) (c - 1)) (c - 1) 0, ?_, ?_, hcopy, ?_, ?_, rfl, rfl,
    release_same _ _⟩
  · have e1 : int_wrap 1 = 1 := by decide
    simp [q_insert_tail, q_new, hnew, hnd0, e1]
  · have hrun := q_remove_head_copy_ok (store h newt nd0)
      { head := newt, tail := newt, size := 1 } nd0 (copy_value fresh s) m c hnew
      (store_same h newt nd0) rfl hc1 hc2
    rw [hrun, copy_out, size_pred_pos c hc1 hc2]
    rfl
  · simp only [poke, strncpy]
    by_cases hlast : min (cstr s).length (c - 1) = c - 1
    · rw [if_pos hlast]
    · rw [if_neg hlast]
      have hlt : min (cstr s).length (c - 1) < c - 1 := by omega
      rw [if_pos hlt, if_neg (by simp only [strlen, cstr_copy_value]; omega)]
  · intro hlen
    rw [hcopy]
    exact List.take_of_length_le (by omega)

/-- C17, for "banana" and capacities 4 and 8. -/
theorem insert_tail_remove_head_round_trip_witness :
    (∃ h1 q1 h2 q2 m', q_insert_tail emptyHeap (q_new true) banana 1 (some junk) =
        .ok (h1, some q1, true) ∧
      q_remove_head h1 (some q1) (some junk) 4 = .ok (h2, some q2, some m', true) ∧
      cstr (readMem m' 4) = [98, 97, 110] ∧ q2.size = 0 ∧ q2.head = 0) ∧
    (∃ h1 q1 h2 q2 m', q_insert_tail emptyHeap (q_new true) banana 1 (some junk) =
        .ok (h1, some q1, true) ∧
      q_remove_head h1 (some q1) (some junk) 8 = .ok (h2, some q2, some m', true) ∧
      cstr (readMem m' 8) = cstr banana ∧ q2.size = 0 ∧ q2.head = 0) := by
  constructor
  · obtain ⟨h1, q1, h2, q2, m', hr1, hr2, hcp, -, -, hs, hh, -⟩ :=
      insert_tail_remove_head_round_trip emptyHeap banana 1 junk junk 4 (by decide)
        (by decide) (by decide)
    exact ⟨h1, q1, h2, q2, m', hr1, hr2, hcp, hs, hh⟩
  · obtain ⟨h1, q1, h2, q2, m', hr1, hr2, -, -, hfull, hs, hh, -⟩ :=
      insert_tail_remove_head_round_trip emptyHeap banana 1 junk junk 8 (by decide)
        (by decide) (by decide)
    exact ⟨h1, q1, h2, q2, m', hr1, hr2, hfull (by decide), hs, hh⟩

/-! ## The merge step against its reference -/

theorem merge_ref_nil_left (key : Nat → List Nat) (r : List Nat) : merge_ref key [] r = r := rfl

theorem merge_ref_nil_right (key : Nat → List Nat) (l : List Nat) : merge_ref key l [] = l := by
  cases l <;> rfl

theorem merge_ref_cons_cons (key : Nat → List Nat) (a b : Nat) (l r : List Nat) :
    merge_ref key (a :: l) (b :: r) =
      if strcmp (key a) (key b) ≤ 0 then a :: merge_ref key l (b :: r)
      else b :: merge_ref key (a :: l) r := by
  simp only [merge_ref, merge_ref_from]

/-- The reference merge is the library merge for the order decided by `strcmp`. -/
theorem merge_ref_eq_merge (key : Nat → List Nat) (l r : List Nat) :
    merge_ref key l r = List.merge l r (leKey key) := by
  induction l generalizing r with
  | nil => simp [merge_ref_nil_left]
  | cons a l ih =>
    induction r with
    | nil => simp [merge_ref_nil_right]
    | cons b r ih2 =>
      rw [merge_ref_cons_cons, List.cons_merge_cons]
      by_cases hle : strcmp (key a) (key b) ≤ 0
      · have : leKey key a b = true := by simp [leKey, leBuf, hle]
        rw [if_pos hle, if_pos this, ih]
      · have : ¬ leKey key a b = true := by simp [leKey, leBuf, hle]
        rw [if_neg hle, if_neg this, ih2]

/-- C18: on two disjoint NULL-terminated chains `L` and `R`, not both empty,
whose nodes own a value, `merge` returns the chain whose node sequence is the
reference left-biased merge of `L` and `R`, relinking the given nodes only.  The
result holds every node of `L` and `R` exactly once; when `L` and `R` ascend so
does the result; and when `L` ascends every node of `L` comes before every node
of `R` with an equal value. -/
theorem merge_refines (fuel : Nat) (h : Heap) (l r : Nat) (L R : List Nat)
    (hL : isChain h l L = true) (hR : isChain h r R = true) (hdis : ∀ a ∈ L, a ∉ R)
    (hval : ∀ a ∈ L ++ R, hasValue h a = true)
    (hne : L ≠ [] ∨ R ≠ []) (hf : L.length + R.length ≤ fuel) :
    ∃ h' p, merge fuel h l r = .ok (h', p) ∧
      isChain h' p (merge_ref (bufOf h) L R) = true ∧
      (∀ a, (h' a).map (fun nd => nd.value) = (h a).map (fun nd => nd.value)) ∧
      (∀ a, a ∉ L → a ∉ R → h' a = h a) ∧
      (merge_ref (bufOf h) L R).Perm (L ++ R) ∧ (merge_ref (bufOf h) L R).Nodup ∧
      (L.Pairwise (fun a b => strcmp (bufOf h a) (bufOf h b) ≤ 0) →
        R.Pairwise (fun a b => strcmp (bufOf h a) (bufOf h b) ≤ 0) →
        (merge_ref (bufOf h) L R).Pairwise (fun a b => strcmp (bufOf h a) (bufOf h b) ≤ 0)) ∧
      (L.Pairwise (fun a b => strcmp (bufOf h a) (bufOf h b) ≤ 0) →
        ∀ a ∈ L, ∀ b ∈ R, textOf h a = textOf h b →
          [a, b].Sublist (merge_ref (bufOf h) L R)) := by
  obtain ⟨h', hrun, hch, hfr, hsv⟩ :=
    merge_spec (bufOf h) fuel L R h l r hL hR hdis
      (fun a ha => hasValue_iff.1 (hval a (List.mem_append.2 ha))) hne hf
  have hle : ∀ a b, leKey (bufOf h) a b = true ↔ strcmp (bufOf h a) (bufOf h b) ≤ 0 := by
    intro a b; simp [leKey, leBuf]
  have hpw : ∀ {xs : List Nat}, xs.Pairwise (fun a b => strcmp (bufOf h a) (bufOf h b) ≤ 0) ↔
      xs.Pairwise (fun a b => leKey (bufOf h) a b = true) := by
    intro xs
    constructor
    · intro hx; exact hx.imp (fun hab => (hle _ _).2 hab)
    · intro hx; exact hx.imp (fun hab => (hle _ _).1 hab)
  rw [merge_ref_eq_merge]
  refine ⟨h', _, hrun, hch, hsv, hfr, List.merge_perm_append (leKey (bufOf h)), isChain_nodup hch,
    ?_, ?_⟩
  · intro h1 h2
    exact hpw.2 (List.sorted_merge (leKey_trans (bufOf h)) (leKey_total (bufOf h)) L R
      (hpw.1 h1) (hpw.1 h2))
  · intro h1 a ha b hb heq
    refine pair_sublist_merge _ (leKey_trans (bufOf h)) L R (hpw.1 h1) a b ha hb ?_
    have : strcmp (bufOf h a) (bufOf h b) = 0 := (strcmp_eq_zero_iff _ _).2 heq
    exact (hle a b).2 (by omega)

/-- C18, on the chains apple, cherry (nodes 1, 3) and apple, banana (nodes 2, 4):
the merge is apple, apple, banana, cherry with the left apple first. -/
theorem merge_refines_witness :
    isChain two_chains 1 [1, 3] = true ∧ isChain two_chains 2 [2, 4] = true ∧
    ∃ h' p, merge 4 two_chains 1 2 = .ok (h', p) ∧ isChain h' p [1, 2, 4, 3] = true := by
  refine ⟨by decide, by decide, ?_⟩
  obtain ⟨h', p, hrun, hch, -⟩ :=
    merge_refines 4 two_chains 1 2 [1, 3] [2, 4] (by decide) (by decide) (by decide)
      (by decide) (by decide) (by decide)
  have e : merge_ref (bufOf two_chains) [1, 3] [2, 4] = [1, 2, 4, 3] := by decide
  rw [e] at hch
  exact ⟨h', p, hrun, hch⟩

/-- The last node of a chain has a NULL link. -/
theorem chain_last_next {h : Heap} {ns : List Nat} :
    ∀ {p : Nat} {nd : list_ele_t}, isChain h p ns = true → ns ≠ [] →
      h (ns.getLastD 0) = some nd → nd.next = 0 := by
  induction ns with
  | nil => intro p nd _ hne; exact absurd rfl hne
  | cons n rest ih =>
    intro p nd hc _ hnd
    obtain ⟨-, -, nd1, hnd1, hrest⟩ := (isChain_cons_iff h p n rest).1 hc
    cases rest with
    | nil =>
      simp only [List.getLastD_cons, List.getLastD_nil] at hnd
      rw [hnd1] at hnd
      cases hnd
      exact (isChain_nil_iff h _).1 hrest
    | cons m rest' =>
      have e1 : (n :: m :: rest').getLastD 0 = (m :: rest').getLastD 0 := by
        simp [List.getLastD_cons]
      rw [e1] at hnd
      exact ih hrest (by simp) hnd

/-! ## Well-formedness across the operations -/

/-- C19 (amended): starting from a well-formed queue with node sequence `ns`,
`q_reverse`, `q_sort`, a successful `q_insert_head` or `q_insert_tail` on fewer
than `INT_MAX` elements, and `q_remove_head` on at least two elements (the
count being an `int`, at most `INT_MAX`) with a NULL destination or a capacity
of at least one byte, each return a well-formed queue (the chain from head has
`size` nodes and ends in NULL, and tail is its last node); after `q_sort` the
tail is the last node of the sorted chain.  Removing the only element is the
exception: head is NULL and the count 0, but tail keeps the address of the
freed node. -/
theorem wf_preserved (fuel : Nat) (h : Heap) (q : queue_t) (ns : List Nat) (s : List Nat)
    (p : Nat) (fresh : Mem) (hwf : wf h q ns) (hp : p ≠ 0)
    (hfree : h p = none) (hf : ns.length < fuel) :
    ((ns.length : Int) < INT_MAX →
      (∃ h' q', q_insert_head h (some q) s p (some fresh) = (h', some q', true) ∧
        wf h' q' (p :: ns)) ∧
      (∃ h' q', q_insert_tail h (some q) s p (some fresh) = .ok (h', some q', true) ∧
        wf h' q' (ns ++ [p]))) ∧
    (∃ h' q', q_reverse fuel h (some q) = .ok (h', some q') ∧ wf h' q' ns.reverse) ∧
    (∃ h' q' ms, q_sort fuel h (some q) = .ok (h', some q') ∧ wf h' q' ms ∧ ms.Perm ns ∧
      q'.tail = ms.getLastD 0 ∧ (ns ≠ [] → ∃ nd, h' q'.tail = some nd ∧ nd.next = 0)) ∧
    (∀ n m rest sp c, ns = n :: m :: rest → q.size ≤ INT_MAX →
      (sp = none ∨ (1 ≤ c ∧ c ≤ SIZE_MAX)) →
      ∃ h' q' sp', q_remove_head h (some q) sp c = .ok (h', some q', sp', true) ∧
        wf h' q' (m :: rest)) ∧
    (∀ n sp c, ns = [n] → (sp = none ∨ (1 ≤ c ∧ c ≤ SIZE_MAX)) →
      ∃ h' q' sp', q_remove_head h (some q) sp c = .ok (h', some q', sp', true) ∧
        q'.head = 0 ∧ q'.size = 0 ∧ q'.tail = n ∧ n ≠ 0 ∧ h' n = none ∧
        ¬ ∃ ms, wf h' q' ms) := by
  refine ⟨?_, ?_, ?_, ?_, ?_⟩
  · intro hlt
    constructor
    · exact ⟨_, _, q_insert_head_ok h q s p fresh hp,
        wf_insert_head h q ns s p fresh hwf hp hfree hlt⟩
    · obtain ⟨h', q', hrun, hwf', -, -⟩ := wf_insert_tail h q ns s p fresh hwf hp hfree hlt
      exact ⟨h', q', hrun, hwf'⟩
  · obtain ⟨h', hrun, hwf', -, -⟩ := wf_reverse fuel h q ns hwf hf
    exact ⟨h', _, hrun, hwf'⟩
  · obtain ⟨h', hrun, hwf', -, -⟩ := wf_sort fuel h q ns hwf hf
    have hperm := listSort_perm (bufOf h) ns
    by_cases hemp : ns = []
    · exact ⟨h', _, _, hrun, hwf', hperm, rfl, fun e => absurd hemp e⟩
    · have hne : listSort (bufOf h) ns ≠ [] := by
        intro e
        rw [e] at hperm
        exact hemp hperm.symm.eq_nil
      obtain ⟨nd, hnd⟩ := isChain_live hwf'.1 _ (getLastD_mem hne 0)
      exact ⟨h', _, _, hrun, hwf', hperm, rfl,
        fun _ => ⟨nd, hnd, chain_last_next hwf'.1 hne hnd⟩⟩
  · intro n m rest sp c hns hint hdst
    subst hns
    exact wf_remove_head h q n m rest sp c hwf hint hdst
  · intro n sp c hns hdst
    subst hns
    obtain ⟨hc, hsize, htail, -⟩ := hwf
    obtain ⟨hq, hn, nd, hnd, hrest⟩ := (isChain_cons_iff h q.head n []).1 hc
    have h0 : q.head ≠ 0 := hq ▸ hn
    obtain ⟨sp', hrun⟩ := q_remove_head_ok h q nd sp c h0 (hq ▸ hnd) hdst
    have hnext : nd.next = 0 := (isChain_nil_iff h _).1 hrest
    have ht : q.tail = n := by simpa using htail
    refine ⟨_, _, sp', hrun, hnext, ?_, ht, hn, ?_, ?_⟩
    · show int_wrap (q.size - 1) = 0
      rw [hsize]
      simp only [List.length_singleton, Nat.cast_one]
      decide
    · rw [hq]; exact release_same h n
    · rintro ⟨ms, hc', -, htail', -⟩
      simp only [hnext] at hc'
      rw [isChain_zero hc'] at htail'
      simp only [List.getLastD_nil] at htail'
      exact hn (ht ▸ htail')

/-- C19, on the example queue. -/
theorem wf_preserved_witness :
    wf fruit.1 fruit.2 [1, 2, 3, 4] ∧ fruit.1 9 = none ∧
    (∃ h' q', q_insert_head fruit.1 (some fruit.2) cherry 9 (some junk) = (h', some q', true) ∧
      wf h' q' [9, 1, 2, 3, 4]) ∧
    (∃ h' q', q_insert_tail fruit.1 (some fruit.2) cherry 9 (some junk) =
      .ok (h', some q', true) ∧ wf h' q' [1, 2, 3, 4, 9]) ∧
    (∃ h' q', q_reverse 5 fruit.1 (some fruit.2) = .ok (h', some q') ∧ wf h' q' [4, 3, 2, 1]) ∧
    (∃ h' q' ms, q_sort 5 fruit.1 (some fruit.2) = .ok (h', some q') ∧ wf h' q' ms) ∧
    (∃ h' q' sp', q_remove_head fruit.1 (some fruit.2) (some junk) 4 =
      .ok (h', some q', sp', true) ∧ wf h' q' [2, 3, 4]) := by
  obtain ⟨h1, h3, ⟨h', q', ms, hrun, hwf', -⟩, h5, -⟩ :=
    wf_preserved 5 fruit.1 fruit.2 [1, 2, 3, 4] cherry 9 junk (by decide) (by decide)
      (by decide) (by decide)
  exact ⟨by decide, by decide, (h1 (by decide)).1, (h1 (by decide)).2, h3,
    ⟨h', q', ms, hrun, hwf'⟩,
    h5 1 2 [3, 4] (some junk) 4 rfl (by decide) (Or.inr (by decide))⟩

/-- C19 (refuted as stated): on the well-formed queue of the `INT_MAX` nodes
`1, ..., 2147483647` a successful `q_insert_head` returns a queue whose chain
from head has `2147483648` nodes while its count is `-2147483648`: it is not
well-formed, for any node sequence. -/
theorem wf_lost_at_int_max :
    wf (ramp 2147483647) (ramp_queue 2147483647) (List.range' 1 2147483647) ∧
    ramp 2147483647 2147483648 = none ∧
    ∃ h' q', q_insert_head (ramp 2147483647) (some (ramp_queue 2147483647)) apple 2147483648
        (some junk) = (h', some q', true) ∧
      isChain h' q'.head (2147483648 :: List.range' 1 2147483647) = true ∧
      q'.size = -2147483648 ∧ ¬ ∃ ms, wf h' q' ms := by
  refine ⟨ramp_wf _, ramp_free _ _ (by omega), _, _, rfl, ?_, by decide, ?_⟩
  · refine (isChain_cons_iff _ _ _ _).2 ⟨rfl, by omega, _, store_same _ _ _, ?_⟩
    have hc := (ramp_wf 2147483647).1
    exact isChain_frame hc (fun a ha => store_other _ _ a _ (by
      have := List.mem_range'_1.1 ha
      omega))
  · rintro ⟨ms, -, hsz, -⟩
    have hneg : (-2147483648 : Int) = (ms.length : Int) := hsz
    omega

/-! ## The split of `merge_sort` and the placeholder of `merge` -/

theorem load_not_uninit (h : Heap) (p : Nat) (hl : load h p = .error .uninit) : False := by
  unfold load at hl
  split at hl
  · cases hl
  · split at hl <;> cases hl

theorem set_tail_next_not_uninit (h : Heap) (rn rt : Option Nat) (x : Nat)
    (hs : set_tail_next h rn rt x = .error .uninit) : False := by
  cases rt with
  | none => cases hs
  | some t =>
    simp only [set_tail_next, setNext] at hs
    cases hl : load h t with
    | error e =>
      rw [hl] at hs
      simp only [Except.error.injEq] at hs
      subst hs
      exact load_not_uninit h t hl
    | ok nd => rw [hl] at hs; cases hs

theorem set_tail_next_some (h : Heap) (rn rt : Option Nat) (x : Nat) (h1 : Heap)
    (rn1 : Option Nat) (hrun : set_tail_next h rn rt x = .ok (h1, rn1))
    (hc : rt = none ∨ rn.isSome = true) : rn1.isSome = true := by
  cases rt with
  | none =>
    simp only [set_tail_next, Except.ok.injEq, Prod.mk.injEq] at hrun
    rw [← hrun.2]; rfl
  | some t =>
    have hrn : rn.isSome = true := hc.resolve_left (by simp)
    simp only [set_tail_next] at hrun
    cases hs : setNext h t x with
    | error e => rw [hs] at hrun; cases hrun
    | ok h2 =>
      rw [hs] at hrun
      simp only [Except.ok.injEq, Prod.mk.injEq] at hrun
      rw [← hrun.2]; exact hrn

/-- One pass through the loop of `merge`: it stops at once when a chain is
empty; otherwise it faults (never on an uninitialised local) or links one node
behind `result_tail` and goes on with that node as `result_tail`. -/
theorem merge_loop_step (f : Nat) (h : Heap) (rn rt : Option Nat) (l r : Nat) :
    ((l = 0 ∨ r = 0) ∧ merge_loop (f + 1) h rn rt l r = .ok ⟨h, rn, rt, l, r⟩) ∨
    (l ≠ 0 ∧ r ≠ 0 ∧
      ((∃ e, merge_loop (f + 1) h rn rt l r = .error e ∧ e ≠ .uninit) ∨
        ∃ h1 rn1 t l1 r1, set_tail_next h rn rt t = .ok (h1, rn1) ∧
          merge_loop (f + 1) h rn rt l r = merge_loop f h1 rn1 (some t) l1 r1)) := by
  by_cases hl0 : l = 0
  · exact Or.inl ⟨Or.inl hl0, by simp [merge_loop, hl0]⟩
  by_cases hr0 : r = 0
  · exact Or.inl ⟨Or.inr hr0, by simp [merge_loop, hr0]⟩
  refine Or.inr ⟨hl0, hr0, ?_⟩
  cases hl : load h l with
  | error e =>
    refine Or.inl ⟨e, by simp [merge_loop, hl0, hr0, hl], ?_⟩
    rintro rfl
    exact load_not_uninit h l hl
  | ok lnd =>
    cases hr : load h r with
    | error e =>
      refine Or.inl ⟨e, by simp [merge_loop, hl0, hr0, hl, hr], ?_⟩
      rintro rfl
      exact load_not_uninit h r hr
    | ok rnd =>
      cases hlv : lnd.value with
      | none => exact Or.inl ⟨.null, by simp [merge_loop, hl0, hr0, hl, hr, hlv], by simp⟩
      | some lv =>
        cases hrv : rnd.value with
        | none => exact Or.inl ⟨.null, by simp [merge_loop, hl0, hr0, hl, hr, hlv, hrv], by simp⟩
        | some rv =>
          cases hdec : decide (strcmp lv rv ≤ 0) with
          | true =>
            cases hs : set_tail_next h rn rt l with
            | error e =>
              refine Or.inl ⟨e, ?_, ?_⟩
              · simp only [merge_loop, hl0, hr0, ne_eq, not_false_eq_true, and_self, if_true,
                  hl, hr, hlv, hrv, hdec, hs]
              · rintro rfl
                exact set_tail_next_not_uninit h rn rt l hs
            | ok res =>
              obtain ⟨h1, rn1⟩ := res
              cases ht : load h1 l with
              | error e =>
                refine Or.inl ⟨e, ?_, ?_⟩
                · simp only [merge_loop, hl0, hr0, ne_eq, not_false_eq_true, and_self, if_true,
                    hl, hr, hlv, hrv, hdec, hs, ht]
                · rintro rfl
                  exact load_not_uninit h1 l ht
              | ok tnd =>
                refine Or.inr ⟨h1, rn1, l, tnd.next, r, hs, ?_⟩
                simp only [merge_loop, hl0, hr0, ne_eq, not_false_eq_true, and_self, if_true,
                  hl, hr, hlv, hrv, hdec, hs, ht]
          | false =>
            cases hs : set_tail_next h rn rt r with
            | error e =>
              refine Or.inl ⟨e, ?_, ?_⟩
              · simp only [merge_loop, hl0, hr0, ne_eq, not_false_eq_true, and_self, if_true,
                  hl, hr, hlv, hrv, hdec, Bool.false_eq_true, if_false, hs]
              · rintro rfl
                exact set_tail_next_not_uninit h rn rt r hs
            | ok res =>
              obtain ⟨h1, rn1⟩ := res
              cases ht : load h1 r with
              | error e =>
                refine Or.inl ⟨e, ?_, ?_⟩
                · simp only [merge_loop, hl0, hr0, ne_eq, not_false_eq_true, and_self, if_true,
                    hl, hr, hlv, hrv, hdec, Bool.false_eq_true, if_false, hs, ht]
                · rintro rfl
                  exact load_not_uninit h1 r ht
              | ok tnd =>
                refine Or.inr ⟨h1, rn1, r, l, tnd.next, hs, ?_⟩
                simp only [merge_loop, hl0, hr0, ne_eq, not_false_eq_true, and_self, if_true,
                  hl, hr, hlv, hrv, hdec, Bool.false_eq_true, if_false, hs, ht]

/-- The loop of `merge` never reads an uninitialised local. -/
theorem merge_loop_not_uninit (fuel : Nat) :
    ∀ (h : Heap) (rn rt : Option Nat) (l r : Nat),
      merge_loop fuel h rn rt l r = .error .uninit → False := by
  induction fuel with
  | zero => intro h rn rt l r hrun; cases hrun
  | succ f ih =>
    intro h rn rt l r hrun
    rcases merge_loop_step f h rn rt l r with ⟨-, hst⟩ | ⟨-, -, ⟨e, he, hne⟩ | ⟨h1, rn1, t, l1, r1, -, hgo⟩⟩
    · rw [hst] at hrun; cases hrun
    · rw [he] at hrun
      simp only [Except.error.injEq] at hrun
      exact hne hrun
    · rw [hgo] at hrun
      exact ih _ _ _ _ _ hrun

/-- Once `result.next` is set, the loop of `merge` keeps it set. -/
theorem merge_loop_keeps_result (fuel : Nat) :
    ∀ (h : Heap) (rn rt : Option Nat) (l r : Nat) (st : merge_state),
      rn.isSome = true → rt.isSome = true → merge_loop fuel h rn rt l r = .ok st →
      st.result_next.isSome = true := by
  induction fuel with
  | zero => intro h rn rt l r st _ _ hrun; cases hrun
  | succ f ih =>
    intro h rn rt l r st hrn hrt hrun
    rcases merge_loop_step f h rn rt l r with ⟨-, hst⟩ | ⟨-, -, ⟨e, he, -⟩ | ⟨h1, rn1, t, l1, r1, hs, hgo⟩⟩
    · rw [hst] at hrun
      simp only [Except.ok.injEq] at hrun
      subst hrun
      exact hrn
    · rw [he] at hrun; cases hrun
    · rw [hgo] at hrun
      exact ih h1 rn1 (some t) l1 r1 st (set_tail_next_some _ _ _ _ _ _ hs (Or.inr hrn)) rfl hrun

/-- The loop of `merge`, started with nothing linked, either makes no step,
because one chain is empty, or leaves `result.next` set. -/
theorem merge_loop_start (fuel : Nat) (h : Heap) (l r : Nat) (st : merge_state)
    (hrun : merge_loop fuel h none none l r = .ok st) :
    (st.result_tail = none ∧ st.l_head = l ∧ st.r_head = r) ∨
    st.result_next.isSome = true := by
  cases fuel with
  | zero => cases hrun
  | succ f =>
    rcases merge_loop_step f h none none l r with ⟨-, hst⟩ | ⟨-, -, ⟨e, he, -⟩ | ⟨h1, rn1, t, l1, r1, hs, hgo⟩⟩
    · rw [hst] at hrun
      simp only [Except.ok.injEq] at hrun
      subst hrun
      exact Or.inl ⟨rfl, rfl, rfl⟩
    · rw [he] at hrun; cases hrun
    · rw [hgo] at hrun
      exact Or.inr (merge_loop_keeps_result f h1 rn1 (some t) l1 r1 st
        (set_tail_next_some _ _ _ _ _ _ hs (Or.inl rfl)) rfl hrun)

/-- The function `merge` reads the uninitialised `result.next` only when both
chains are empty. -/
theorem merge_uninit_only_empty (fuel : Nat) (h : Heap) (l r : Nat)
    (hrun : merge fuel h l r = .error .uninit) : l = 0 ∧ r = 0 := by
  simp only [merge] at hrun
  cases hloop : merge_loop fuel h none none l r with
  | error e =>
    rw [hloop] at hrun
    simp only [Except.error.injEq] at hrun
    subst hrun
    exact (merge_loop_not_uninit fuel h none none l r hloop).elim
  | ok st =>
    rw [hloop] at hrun
    simp only [] at hrun
    cases hrest : merge_rest st with
    | error e =>
      rw [hrest] at hrun
      simp only [Except.error.injEq] at hrun
      subst hrun
      exfalso
      simp only [merge_rest] at hrest
      split at hrest
      · exact set_tail_next_not_uninit _ _ _ _ hrest
      · split at hrest
        · exact set_tail_next_not_uninit _ _ _ _ hrest
        · cases hrest
    | ok res =>
      obtain ⟨h1, rn1⟩ := res
      rw [hrest] at hrun
      cases rn1 with
      | some p => cases hrun
      | none =>
        simp only [merge_rest] at hrest
        rcases merge_loop_start fuel h l r st hloop with ⟨hrt, hl, hr⟩ | hrn
        · rw [hl, hr] at hrest
          by_cases hl0 : l = 0
          · by_cases hr0 : r = 0
            · exact ⟨hl0, hr0⟩
            · simp only [hl0, ne_eq, not_true_eq_false, if_false, hr0, not_false_eq_true,
                if_true] at hrest
              have := set_tail_next_some _ _ _ _ _ _ hrest (Or.inl hrt)
              simp at this
          · simp only [ne_eq, hl0, not_false_eq_true, if_true] at hrest
            have := set_tail_next_some _ _ _ _ _ _ hrest (Or.inl hrt)
            simp at this
        · exfalso
          split at hrest
          · have := set_tail_next_some _ _ _ _ _ _ hrest (Or.inr hrn)
            simp at this
          · split at hrest
            · have := set_tail_next_some _ _ _ _ _ _ hrest (Or.inr hrn)
              simp at this
            · simp only [Except.ok.injEq, Prod.mk.injEq] at hrest
              rw [hrest.2] at hrn
              simp at hrn

theorem chain_head_ne_zero {h : Heap} {p : Nat} {ns : List Nat} (hc : isChain h p ns = true)
    (hne : ns ≠ []) : p ≠ 0 := by
  cases ns with
  | nil => exact absurd rfl hne
  | cons n rest =>
    obtain ⟨rfl, hn, -⟩ := (isChain_cons_iff h p n rest).1 hc
    exact hn

theorem values_kept {h h' : Heap} {key : Nat → List Nat} (hsv : sameValues h h') {a : Nat}
    (hv : ∃ nd, h a = some nd ∧ nd.value = some (key a)) :
    ∃ nd, h' a = some nd ∧ nd.value = some (key a) := by
  obtain ⟨nd, hnd, hval⟩ := hv
  have := hsv a
  rw [hnd] at this
  cases h'a : h' a with
  | none => rw [h'a] at this; simp at this
  | some nd' =>
    rw [h'a] at this
    simp only [Option.map_some', Option.some.injEq] at this
    exact ⟨nd', rfl, this.trans hval⟩

/-- C20: on a NULL-terminated chain of exactly `size` nodes that own values,
`merge_sort` returns without a fault.  When there are at least two nodes, the
walk to the split point returns a node (it follows no NULL link), the cut
leaves the first `floor(size / 2)` nodes as the left chain and the remaining
`size - floor(size / 2)` nodes as the right chain, both recursive calls return
non-NULL chains, and `merge` is called on these two and returns.  The function
`merge` reads its uninitialised `result.next` exactly when both its inputs are
NULL, which therefore never happens inside `merge_sort`. -/
theorem merge_sort_split_safe (fuel : Nat) (h : Heap) (head : Nat) (ns : List Nat) (size : Int)
    (hc : isChain h head ns = true) (hsize : size = (ns.length : Int))
    (hval : ∀ a ∈ ns, hasValue h a = true) (hf : ns.length < fuel) :
    (∃ h' p, merge_sort fuel h head size = .ok (h', p)) ∧
    (2 ≤ ns.length →
      ∃ l_tail nd h2 l_result h3 r_result,
        split_walk ((size >>> (1 : Nat)) - 1).toNat h head = .ok l_tail ∧
        load h l_tail = .ok nd ∧
        isChain (store h l_tail { nd with next := 0 }) head (ns.take (ns.length / 2)) = true ∧
        (ns.take (ns.length / 2)).length = ns.length / 2 ∧
        isChain (store h l_tail { nd with next := 0 }) nd.next (ns.drop (ns.length / 2)) = true ∧
        (ns.drop (ns.length / 2)).length = ns.length - ns.length / 2 ∧
        merge_sort (fuel - 1) (store h l_tail { nd with next := 0 }) head (size >>> (1 : Nat)) =
          .ok (h2, l_result) ∧
        merge_sort (fuel - 1) h2 nd.next (size - size >>> (1 : Nat)) = .ok (h3, r_result) ∧
        l_result ≠ 0 ∧ r_result ≠ 0 ∧
        merge_sort fuel h head size = merge (fuel - 1) h3 l_result r_result ∧
        ∃ h' p, merge (fuel - 1) h3 l_result r_result = .ok (h', p)) ∧
    (∀ (f : Nat) (g : Heap) (l r : Nat), merge f g l r = .error .uninit → l = 0 ∧ r = 0) ∧
    (∀ (f : Nat) (g : Heap), merge (f + 1) g 0 0 = .error .uninit) := by
  have hkey : ∀ a ∈ ns, ∃ nd, h a = some nd ∧ nd.value = some (bufOf h a) :=
    fun a ha => hasValue_iff.1 (hval a ha)
  refine ⟨?_, ?_, fun f g l r => merge_uninit_only_empty f g l r, fun f g => by
    simp [merge, merge_loop, merge_rest]⟩
  · obtain ⟨h', hrun, -⟩ := merge_sort_spec (bufOf h) fuel ns h head size hc hsize hkey hf
    exact ⟨h', _, hrun⟩
  · intro h2le
    obtain ⟨f, rfl⟩ : ∃ f, fuel = f + 1 := ⟨fuel - 1, by omega⟩
    simp only [Nat.add_sub_cancel]
    have hbig : ¬ size ≤ 1 := by omega
    have hhalf : size >>> (1 : Nat) = ((ns.length / 2 : Nat) : Int) := by
      rw [Int.shiftRight_eq_div_pow, hsize]; norm_num
    set k := ns.length / 2 with hk
    have hk1 : 1 ≤ k := by omega
    have hk2 : k < ns.length := by omega
    have hsplit : ns.take k ++ ns.drop k = ns := List.take_append_drop k ns
    have hlt : (ns.take k).length = k := by simp only [List.length_take]; omega
    have hld : (ns.drop k).length = ns.length - k := by simp only [List.length_drop]
    have hnodup := isChain_nodup hc
    have hc0 := hc
    rw [← hsplit] at hc hnodup
    have htne : ns.take k ≠ [] := by intro e; rw [e] at hlt; simp at hlt; omega
    have hdne : ns.drop k ≠ [] := by intro e; rw [e] at hld; simp at hld; omega
    obtain ⟨nd, hwalk, hl0, hlast, hnext, hc1, hc2⟩ :=
      split_spec (ns.take k) (ns.drop k) h head htne hc
    rw [hlt] at hwalk
    set lt := (ns.take k).getLastD 0 with hltdef
    set h1 := store h lt { nd with next := 0 } with hh1
    have hsv1 : sameValues h h1 := sameValues_store hlast
    have hdisj : ∀ a ∈ ns.take k, a ∉ ns.drop k := fun a ha hb =>
      (List.nodup_append.1 hnodup).2.2 ha hb
    obtain ⟨h2, hrun2, hch2, hfr2, hsv2⟩ :=
      merge_sort_spec (bufOf h) f (ns.take k) h1 head (k : Int) hc1 (by rw [hlt])
        (fun a ha => values_kept hsv1 (hkey a (List.mem_of_mem_take ha))) (by omega)
    have hc2' : isChain h2 ((ns.drop k).headD 0) (ns.drop k) = true :=
      isChain_frame hc2 (fun a ha => hfr2 a (fun e => hdisj a e ha))
    have hsv12 := sameValues_trans hsv1 hsv2
    obtain ⟨h3, hrun3, hch3, hfr3, hsv3⟩ :=
      merge_sort_spec (bufOf h) f (ns.drop k) h2 ((ns.drop k).headD 0)
        ((ns.length - k : Nat) : Int) hc2' (by rw [hld])
        (fun a ha => values_kept hsv12 (hkey a (List.mem_of_mem_drop ha))) (by omega)
    have hsv123 := sameValues_trans hsv12 hsv3
    have hpl := listSort_perm (bufOf h) (ns.take k)
    have hpr := listSort_perm (bufOf h) (ns.drop k)
    have hlne : listSort (bufOf h) (ns.take k) ≠ [] := by
      intro e; rw [e] at hpl; exact htne hpl.symm.eq_nil
    have hrne : listSort (bufOf h) (ns.drop k) ≠ [] := by
      intro e; rw [e] at hpr; exact hdne hpr.symm.eq_nil
    have hch2' : isChain h3 ((listSort (bufOf h) (ns.take k)).headD 0)
        (listSort (bufOf h) (ns.take k)) = true :=
      isChain_frame hch2 (fun a ha => hfr3 a (fun e => hdisj a (hpl.mem_iff.1 ha) e))
    obtain ⟨h4, hrun4, -⟩ :=
      merge_spec (bufOf h) f (listSort (bufOf h) (ns.take k)) (listSort (bufOf h) (ns.drop k))
        h3 _ _ hch2' hch3
        (fun a ha hb => hdisj a (hpl.mem_iff.1 ha) (hpr.mem_iff.1 hb))
        (fun a ha => values_kept hsv123 (hkey a (by
          rcases ha with ha | ha
          · exact List.mem_of_mem_take (hpl.mem_iff.1 ha)
          · exact List.mem_of_mem_drop (hpr.mem_iff.1 ha))))
        (Or.inl hlne)
        (by rw [hpl.length_eq, hpr.length_eq, hlt, hld]; omega)
    have hsub : size - (k : Int) = ((ns.length - k : Nat) : Int) := by omega
    have e : ((k : Int) - 1).toNat = k - 1 := by omega
    rw [hhalf, e, hsub]
    rw [← hnext] at hrun3 hc2
    refine ⟨lt, nd, h2, _, h3, _, hwalk, load_ok hl0 hlast, hc1, hlt, hc2, hld, hrun2, hrun3,
      chain_head_ne_zero hch2' hlne, chain_head_ne_zero hch3 hrne, ?_, ⟨h4, _, hrun4⟩⟩
    simp only [merge_sort, hbig, if_false, hhalf, e, hwalk, load_ok hl0 hlast, hsub]
    rw [← hh1, hrun2]
    simp only []
    rw [hrun3]

/-- C20, on the chain of the example queue. -/
theorem merge_sort_split_safe_witness :
    isChain fruit.1 1 [1, 2, 3, 4] = true ∧
    (∃ h' p, merge_sort 5 fruit.1 1 4 = .ok (h', p)) ∧
    (∃ l_tail nd, split_walk 1 fruit.1 1 = .ok l_tail ∧ load fruit.1 l_tail = .ok nd ∧
      isChain (store fruit.1 l_tail { nd with next := 0 }) 1 [1, 2] = true ∧
      isChain (store fruit.1 l_tail { nd with next := 0 }) nd.next [3, 4] = true) := by
  obtain ⟨h1, h2, -⟩ :=
    merge_sort_split_safe 5 fruit.1 1 [1, 2, 3, 4] 4 (by decide) (by decide) (by decide)
      (by decide)
  obtain ⟨l_tail, nd, -, -, -, -, hw, hl, hc1, -, hc2, -⟩ := h2 (by decide)
  exact ⟨by decide, h1, l_tail, nd, hw, hl, hc1, hc2⟩

end Queue
